import Mathlib

/-!
# Verification of the kritis `cryptolib` PGP attestation layer

Shallow embedding of `src/pkg/kritis/cryptolib/pgp.go` (package `cryptolib`):
`NewPgpSigner`, `pgpSigner.CreateAttestation` and `pgpVerifierImpl.verifyPgp`.

The Go file is a thin wrapper over the `golang.org/x/crypto/openpgp` and
`.../openpgp/armor` libraries, whose sources are not part of this repository.
Following the specification (spec.md §2–§4), the missing protocol layer —
ASCII-armor framing with a CRC24 checksum, radix-64 encoding, key-ring
parsing, and the attached-signature packet stream — is modelled here from the
spec's own description; every such definition carries a doc comment starting
with `Modelled from the spec:`.  The wrapper control flow (order of checks,
which errors are returned where, the ignored `Close` error) is translated
directly from `pgp.go`.

Bytes are `Nat` values below 256; byte strings are `List Nat`.
-/

namespace Cryptolib

/-- Error taxonomy of spec.md §7.  `MessageParseError` stands for the
unnamed terminal `Error(kind)` of the spec's verification state machine
(a packet-stream parse failure inside `openpgp.ReadMessage`, wrapped by
`pgp.go` as "error reading armor signature"). -/
inductive CError where
  | ConfigurationError (count : Nat)
  | KeyParseError
  | ArmorFormatError
  | KeyNotFoundError
  | SignatureMismatchError
  | MissingSignatureError
  | SigningError
  | IOError
  | MessageParseError
  deriving DecidableEq, Repr

/-! ## Bit-level utilities -/

/-- Value of a bit list, most significant bit first. -/
def natOfBits : List Bool → Nat
  | [] => 0
  | b :: r => (if b then 2 ^ r.length else 0) + natOfBits r

/-- The six bits of a radix-64 value, most significant first. -/
def val6Bits (v : Nat) : List Bool :=
  [v.testBit 5, v.testBit 4, v.testBit 3, v.testBit 2, v.testBit 1, v.testBit 0]

/-- The eight bits of a byte, most significant first. -/
def byteBits (v : Nat) : List Bool :=
  [v.testBit 7, v.testBit 6, v.testBit 5, v.testBit 4,
   v.testBit 3, v.testBit 2, v.testBit 1, v.testBit 0]

/-- A byte string as a bit stream. -/
def bytesToBits : List Nat → List Bool
  | [] => []
  | b :: r => byteBits b ++ bytesToBits r

/-- A radix-64 value string as a bit stream. -/
def bitsOfVals : List Nat → List Bool
  | [] => []
  | v :: r => val6Bits v ++ bitsOfVals r

/-- Big-endian encoding of a natural number into `n` bytes. -/
def natToBytesBE : Nat → Nat → List Nat
  | 0, _ => []
  | n + 1, v => (v / 2 ^ (8 * n)) % 256 :: natToBytesBE n v

/-- Big-endian value of a byte string. -/
def bytesToNatBE : List Nat → Nat
  | [] => 0
  | b :: r => b * 2 ^ (8 * r.length) + bytesToNatBE r

/-! ## Radix-64 (base64) alphabet

Modelled from the spec: the armor body is "radix-64"; the standard
base64 alphabet is used, without `=` padding (the spec's wire format
mentions no padding characters). -/

/-- The base64 character (ASCII code) of a 6-bit value. -/
def b64chr (v : Nat) : Nat :=
  if v < 26 then 65 + v
  else if v < 52 then 97 + (v - 26)
  else if v < 62 then 48 + (v - 52)
  else if v = 62 then 43
  else 47

/-- The 6-bit value of a base64 character; `none` for characters outside
the alphabet. -/
def b64val (c : Nat) : Option Nat :=
  if 65 ≤ c ∧ c ≤ 90 then some (c - 65)
  else if 97 ≤ c ∧ c ≤ 122 then some (26 + (c - 97))
  else if 48 ≤ c ∧ c ≤ 57 then some (52 + (c - 48))
  else if c = 43 then some 62
  else if c = 47 then some 63
  else none

/-- Cut a bit stream into 6-bit groups, zero-padding the final group. -/
def chunk6 : List Bool → List Nat
  | [] => []
  | [a] => [natOfBits [a, false, false, false, false, false]]
  | [a, b] => [natOfBits [a, b, false, false, false, false]]
  | [a, b, c] => [natOfBits [a, b, c, false, false, false]]
  | [a, b, c, d] => [natOfBits [a, b, c, d, false, false]]
  | [a, b, c, d, e] => [natOfBits [a, b, c, d, e, false]]
  | a :: b :: c :: d :: e :: f :: rest => natOfBits [a, b, c, d, e, f] :: chunk6 rest

/-- Regroup a bit stream into bytes.  The trailing group of fewer than
eight bits must consist of zero bits (canonical radix-64 padding),
otherwise the stream is rejected. -/
def chunkBytes : List Bool → Option (List Nat)
  | b1 :: b2 :: b3 :: b4 :: b5 :: b6 :: b7 :: b8 :: rest =>
    match chunkBytes rest with
    | some B => some (natOfBits [b1, b2, b3, b4, b5, b6, b7, b8] :: B)
    | none => none
  | rest => if rest.all (fun b => !b) then some [] else none

/-- Modelled from the spec: radix-64 encoding of a binary body. -/
def encodeB64 (B : List Nat) : List Nat :=
  (chunk6 (bytesToBits B)).map b64chr

/-- Decode every character of a base64 text; `none` if any character is
outside the alphabet. -/
def b64vals : List Nat → Option (List Nat)
  | [] => some []
  | c :: r =>
    match b64val c, b64vals r with
    | some v, some vs => some (v :: vs)
    | _, _ => none

/-- Modelled from the spec: radix-64 decoding of an armor body
("fails ... " when the "body cannot be decoded"); strict, canonical:
trailing unused bits must be zero. -/
def decodeB64 (t : List Nat) : Option (List Nat) :=
  match b64vals t with
  | some vs => chunkBytes (bitsOfVals vs)
  | none => none

/-! ## CRC24

Modelled from the spec: "a trailing CRC24 checksum" protects the armor
body (spec.md §4.2, glossary).  The RFC-4880 CRC24 (polynomial
`0x1864CFB`, initial value `0xB704CE`) processed bit-wise, most
significant bit first. -/

/-- The CRC24 generator polynomial, low 24 bits. -/
def crcPoly : Nat := 0x864CFB

/-- The CRC24 initial register value. -/
def crcInit : Nat := 0xB704CE

/-- One bit of the CRC24 computation (MSB-first). -/
def crcStep (s : Nat) (b : Bool) : Nat :=
  let s1 := (s * 2) % 2 ^ 24
  if Bool.xor (s.testBit 23) b then s1 ^^^ crcPoly else s1

/-- Run the CRC24 register over a bit stream. -/
def crcRun (s : Nat) : List Bool → Nat
  | [] => s
  | b :: r => crcRun (crcStep s b) r

/-- Modelled from the spec: the CRC24 checksum of a binary armor body. -/
def crc24 (B : List Nat) : Nat := crcRun crcInit (bytesToBits B)

/-! ## ASCII-armor framing

Modelled from the spec (§4.2, §6): header line, radix-64 body, a CRC24
checksum line prefixed with `=`, and a matching footer line.  The body is
modelled as a single radix-64 line (the spec does not pin the wrap width). -/

/-- ASCII codes of a string. -/
def strBytes (s : String) : List Nat := s.data.map Char.toNat

/-- Armor block types produced or consumed by the wrapper. -/
inductive ArmorType where
  | signature
  | publicKeyBlock
  | privateKeyBlock
  deriving DecidableEq, Repr

/-- The `<TYPE>` tag of an armor block. -/
def armorName : ArmorType → String
  | .signature => "PGP SIGNATURE"
  | .publicKeyBlock => "PGP PUBLIC KEY BLOCK"
  | .privateKeyBlock => "PGP PRIVATE KEY BLOCK"

/-- The `-----BEGIN PGP <TYPE>-----` header line. -/
def headerBytes (ty : ArmorType) : List Nat :=
  strBytes ("-----BEGIN " ++ armorName ty ++ "-----")

/-- The `-----END PGP <TYPE>-----` footer line. -/
def footerBytes (ty : ArmorType) : List Nat :=
  strBytes ("-----END " ++ armorName ty ++ "-----")

/-- Split a byte string into its newline-separated lines. -/
def splitNL : List Nat → List (List Nat)
  | [] => [[]]
  | c :: rest =>
    if c = 10 then [] :: splitNL rest
    else
      match splitNL rest with
      | [] => [[c]]
      | l :: ls => (c :: l) :: ls

/-- Modelled from the spec: ArmorCodec.Encode — header, radix-64 body,
`=`-prefixed CRC24 line, footer, trailing newline. -/
def encodeArmor (ty : ArmorType) (B : List Nat) : List Nat :=
  headerBytes ty ++ 10 :: encodeB64 B ++
    10 :: (61 :: encodeB64 (natToBytesBE 3 (crc24 B))) ++
    10 :: footerBytes ty ++ [10]

/-- Recognise a header line. -/
def armorTypeOf (h : List Nat) : Option ArmorType :=
  if h = headerBytes .signature then some .signature
  else if h = headerBytes .publicKeyBlock then some .publicKeyBlock
  else if h = headerBytes .privateKeyBlock then some .privateKeyBlock
  else none

/-- Modelled from the spec: ArmorCodec.Decode — fails (the wrapper maps the
failure to `ArmorFormatError`) when the header/footer markers are absent or
mismatched, the radix-64 body cannot be decoded, or the trailing CRC24
checksum does not match the decoded body. -/
def decodeArmor (text : List Nat) : Option (ArmorType × List Nat) :=
  match splitNL text with
  | [h, b, c, f, e] =>
    match armorTypeOf h with
    | some ty =>
      if f = footerBytes ty ∧ e = [] then
        match c with
        | 61 :: ctext =>
          match decodeB64 ctext, decodeB64 b with
          | some cb, some B =>
            if cb.length = 3 ∧ bytesToNatBE cb = crc24 B then some (ty, B) else none
          | _, _ => none
        | _ => none
      else none
    | none => none
  | _ => none

/-! ## Key material

Modelled from the spec (§3): a key has a public component, an optional
private component, a fingerprint (hash of the public component) and a
signing-capability flag.  The cryptography is symbolic: a key pair is
identified by its `secret` value; `privValid` models whether the private
key internals are well formed (a malformed private component makes the
underlying signing operation fail). -/

structure Key where
  secret : Nat
  canSign : Bool
  hasPrivate : Bool
  privValid : Bool
  deriving DecidableEq, Repr

/-- Modelled from the spec: the fingerprint is a "binary hash of the public
key"; modelled as the 20-byte big-endian image of the public value. -/
def fingerprint (k : Key) : List Nat := natToBytesBE 20 k.secret

/-- The 8-byte key ID embedded in signature packets (low 64 bits of the
fingerprint, as in OpenPGP). -/
def keyIdBytes (k : Key) : List Nat := (fingerprint k).drop 12

/-- The public part of a key: same public value and capabilities, the
private component dropped. -/
def pubKey (k : Key) : Key :=
  { k with hasPrivate := false, privValid := false }

/-- Uppercase hexadecimal digit. -/
def hexDigit (n : Nat) : Nat := if n < 10 then 48 + n else 55 + n

/-- Uppercase hexadecimal encoding of a byte string
(Go `fmt.Sprintf("%X", …)` on a byte array). -/
def hexUpperBytes : List Nat → List Nat
  | [] => []
  | b :: r => hexDigit (b / 16 % 16) :: hexDigit (b % 16) :: hexUpperBytes r

/-- Flag byte of a serialized key record. -/
def flagsByte (k : Key) : Nat :=
  (cond k.canSign 1 0) + (cond k.hasPrivate 2 0) + (cond k.privValid 4 0)

/-- Modelled from the spec: a key record inside armored key material —
one flag byte followed by the 20-byte public value. -/
def serializeKey (k : Key) : List Nat := flagsByte k :: natToBytesBE 20 k.secret

/-- Concatenated key records of a key ring. -/
def serializeKeys : List Key → List Nat
  | [] => []
  | k :: r => serializeKey k ++ serializeKeys r

/-- Modelled from the spec: parse the binary key records of a key ring;
`none` on "unparseable key packets". -/
def parseKeys : List Nat → Option (List Key)
  | [] => some []
  | f :: rest =>
    if f < 8 ∧ 20 ≤ rest.length then
      match parseKeys (rest.drop 20) with
      | some ks =>
        some ({ secret := bytesToNatBE (rest.take 20), canSign := f.testBit 0,
                hasPrivate := f.testBit 1, privValid := f.testBit 2 } :: ks)
      | none => none
    else none
  termination_by l => l.length
  decreasing_by simp [List.length_drop]; omega

/-- Armored key material for a ring. -/
def serializeKeyRing (ty : ArmorType) (ks : List Key) : List Nat :=
  encodeArmor ty (serializeKeys ks)

/-- Modelled from the spec (KeyRingLoader, §4.1), mirroring
`openpgp.ReadArmoredKeyRing` as called at pgp.go:36 and pgp.go:77:
armor-decode the input (which must be a public or a private key block) and
parse the key records; every failure is a `KeyParseError`. -/
def readArmoredKeyRing (bs : List Nat) : Except CError (List Key) :=
  match decodeArmor bs with
  | some (.publicKeyBlock, B) | some (.privateKeyBlock, B) =>
    match parseKeys B with
    | some ks => .ok ks
    | none => .error .KeyParseError
  | _ => .error .KeyParseError

/-! ## The attached-signature packet stream

Modelled from the spec (§4.3, §4.4 step (2)): the payload is embedded in
the same stream as the signature; the trailing signature packet carries
the signer key ID, a pinned hash algorithm identifier and the signature
value over the hash of the payload. -/

structure SigPacket where
  keyID : List Nat
  hashAlgo : Nat
  sigVal : Nat
  deriving DecidableEq, Repr

/-- Modelled from the spec: "a fixed hash algorithm identifier (pin one
explicitly, e.g. a 256-bit cryptographic hash)" — 8 is OpenPGP's SHA-256. -/
def hashAlgoId : Nat := 8

/-- Modelled from the spec: the hash of the payload, as a 64-bit value
(symbolic stand-in for the pinned 256-bit hash). -/
def payloadHash (p : List Nat) : Nat :=
  p.foldl (fun a b => (a * 131 + b + 1) % 2 ^ 64) 7

/-- Modelled from the spec: "the signature value computed by the key's
signing algorithm over the hash of the payload" (symbolic). -/
def sigCompute (secret h : Nat) : Nat := (h + (secret + 1) * 2654435761) % 2 ^ 64

/-- The signature packet a key produces over a payload. -/
def mkSigPacket (k : Key) (payload : List Nat) : SigPacket :=
  { keyID := keyIdBytes k, hashAlgo := hashAlgoId,
    sigVal := sigCompute k.secret (payloadHash payload) }

/-- Binary form of a signature packet: 8-byte key ID, algorithm byte,
8-byte signature value. -/
def serializeSig (sp : SigPacket) : List Nat :=
  sp.keyID ++ sp.hashAlgo :: natToBytesBE 8 sp.sigVal

/-- Parse the trailing signature packet; `none` when it is malformed
(wrong size or unknown hash algorithm). -/
def parseSig (rest : List Nat) : Option SigPacket :=
  if rest.length = 17 then
    match rest.drop 8 with
    | a :: sbytes =>
      if a = hashAlgoId then
        some { keyID := rest.take 8, hashAlgo := a, sigVal := bytesToNatBE sbytes }
      else none
    | [] => none
  else none

/-- Modelled from the spec: the binary packet stream of an attached
signature — an 8-byte big-endian payload length, the payload bytes, then
the trailing signature packet.  `none` models a signing step that failed
after the payload was written: no signature packet is emitted. -/
def serializeStream (payload : List Nat) (sp : Option SigPacket) : List Nat :=
  natToBytesBE 8 payload.length ++ payload ++
    (match sp with | some s => serializeSig s | none => [])

/-- The result of `openpgp.ReadMessage` as used by pgp.go:46: the embedded
payload, the trailing signature packet (if one was produced by the stream)
and the deferred signature-check outcome. -/
structure MessageDetails where
  payload : List Nat
  signature : Option SigPacket
  signatureError : Option CError
  deriving DecidableEq, Repr

/-- First key of the ring whose key ID matches. -/
def lookupKey (ring : List Key) (kid : List Nat) : Option Key :=
  ring.find? (fun k => keyIdBytes k == kid)

/-- Modelled from the spec: recompute the hash over the recovered payload
and validate the signature value with the matched key. -/
def checkSig (k : Key) (sp : SigPacket) (payload : List Nat) : Bool :=
  sp.sigVal == sigCompute k.secret (payloadHash payload)

/-- Modelled from the spec (VerificationEngine §4.4 steps (2)–(5)),
mirroring `openpgp.ReadMessage`: parse the packet stream, recover the
embedded payload, match the embedded signer key ID against the key ring
(no match → `KeyNotFoundError`, step (3)), and record the outcome of the
cryptographic check in the `signatureError` slot, which pgp.go:60-62
inspects only after the payload has been consumed.  A stream that ends
cleanly after the payload without ever producing a trailing signature
packet yields `signature = none` (step (5)); a malformed trailing packet
is recorded in the `signatureError` slot. -/
def readMessage (body : List Nat) (keyring : List Key) : Except CError MessageDetails :=
  if body.length < 8 then .error .MessageParseError
  else
    let len := bytesToNatBE (body.take 8)
    if body.length - 8 < len then .error .MessageParseError
    else
      let payload := (body.drop 8).take len
      let rest := body.drop (8 + len)
      if rest.isEmpty then .ok { payload := payload, signature := none, signatureError := none }
      else
        match parseSig rest with
        | none => .ok { payload := payload, signature := none,
                        signatureError := some .SignatureMismatchError }
        | some sp =>
          match lookupKey keyring sp.keyID with
          | none => .error .KeyNotFoundError
          | some k =>
            if checkSig k sp payload then
              .ok { payload := payload, signature := some sp, signatureError := none }
            else
              .ok { payload := payload, signature := some sp,
                    signatureError := some .SignatureMismatchError }

/-! ## The wrapper API (translated from pgp.go) -/

/-- `Attestation` as used by `CreateAttestation` (pgp.go:119-122). -/
structure Attestation where
  PublicKeyID : List Nat
  Signature : List Nat
  deriving DecidableEq, Repr

/-- `pgpSigner` (pgp.go:69-72). -/
structure PgpSigner where
  privateKey : Key
  publicKeyID : List Nat
  deriving DecidableEq, Repr

/-- `NewPgpSigner` (pgp.go:76-89): read the armored private key ring,
require exactly one key in it (`ConfigurationError` reporting the actual
count otherwise), and cache the uppercase-hex fingerprint as the public
key ID. -/
def NewPgpSigner (privateKey : List Nat) : Except CError PgpSigner :=
  match readArmoredKeyRing privateKey with
  | .error e => .error e
  | .ok keyring =>
    match keyring with
    | [key] => .ok { privateKey := key, publicKeyID := hexUpperBytes (fingerprint key) }
    | ks => .error (.ConfigurationError ks.length)

/-- `pgpSigner.CreateAttestation` (pgp.go:94-123).  `armor.Encode` and the
payload write target an in-memory buffer and cannot fail there; the error
of `signatureWriter.Close()` — the call that performs the cryptographic
signing — is discarded at pgp.go:116, so a failing signing operation still
returns an Attestation, only without the trailing signature packet. -/
def CreateAttestation (s : PgpSigner) (payload : List Nat) : Except CError Attestation :=
  if s.privateKey.canSign && s.privateKey.hasPrivate then
    let sigPacket : Option SigPacket :=
      if s.privateKey.privValid then some (mkSigPacket s.privateKey payload) else none
    .ok { PublicKeyID := s.publicKeyID,
          Signature := encodeArmor .signature (serializeStream payload sigPacket) }
  else
    -- openpgp.Sign failed (key not signing-capable / no private part):
    -- pgp.go:104-107 returns the error.
    .error .SigningError

/-- `pgpVerifierImpl.verifyPgp` (pgp.go:35-67), with the Go-style
`(payload, error)` pair: read the armored public key ring, armor-decode
the signature, read the message, consume the unverified body, then check
`SignatureError` and the presence of `Signature`. -/
def verifyPgp (signature publicKey : List Nat) : Option (List Nat) × Option CError :=
  match readArmoredKeyRing publicKey with
  | .error _ => (none, some .KeyParseError)
  | .ok keyring =>
    match decodeArmor signature with
    | none => (none, some .ArmorFormatError)
    | some (_, body) =>
      match readMessage body keyring with
      | .error e => (none, some e)
      | .ok md =>
        -- ioutil.ReadAll(md.UnverifiedBody) consumes the whole payload;
        -- an in-memory read cannot fail (pgp.go:53-56).
        match md.signatureError with
        | some e => (none, some e)
        | none =>
          match md.signature with
          | none => (none, some .MissingSignatureError)
          | some _ => (some md.payload, none)

/-! ## Event-trace instrumentation of the verification path

Used to state the stream-order contract (spec.md §4.4 "critical
semantic"): the cryptographic check happens only after the entire
embedded payload has been consumed, and no verdict on a parsed message is
reported before both. -/

/-- Observable events of one `verifyPgp` run, in execution order. -/
inductive VEvent where
  | armorDecoded
  | messageRead
  | payloadFullyConsumed
  | signatureChecked
  | resultReturned (success : Bool)
  deriving DecidableEq, Repr

/-- `verifyPgp` instrumented with its event trace.  The events mirror the
source order: `armor.Decode` (pgp.go:41), `openpgp.ReadMessage`
(pgp.go:46), the full `ioutil.ReadAll` of the unverified body
(pgp.go:53), the signature checks (pgp.go:60-65), and the return. -/
def verifyPgpTrace (signature publicKey : List Nat) :
    (Option (List Nat) × Option CError) × List VEvent :=
  match readArmoredKeyRing publicKey with
  | .error _ => ((none, some .KeyParseError), [.resultReturned false])
  | .ok keyring =>
    match decodeArmor signature with
    | none => ((none, some .ArmorFormatError), [.resultReturned false])
    | some (_, body) =>
      match readMessage body keyring with
      | .error e => ((none, some e), [.armorDecoded, .resultReturned false])
      | .ok md =>
        match md.signatureError with
        | some e =>
          ((none, some e),
           [.armorDecoded, .messageRead, .payloadFullyConsumed, .signatureChecked,
            .resultReturned false])
        | none =>
          match md.signature with
          | none =>
            ((none, some .MissingSignatureError),
             [.armorDecoded, .messageRead, .payloadFullyConsumed, .signatureChecked,
              .resultReturned false])
          | some _ =>
            ((some md.payload, none),
             [.armorDecoded, .messageRead, .payloadFullyConsumed, .signatureChecked,
              .resultReturned true])

/-- Ordering checker over a trace.  Flags: payload fully consumed,
signature checked, message successfully read.  It enforces that a
signature check happens only once the payload is fully consumed, that a
success verdict requires both, and that once the message stream has been
read, even a failure verdict requires both. -/
def orderOK : List VEvent → Bool → Bool → Bool → Bool
  | [], _, _, _ => true
  | .messageRead :: r, c, k, _ => orderOK r c k true
  | .payloadFullyConsumed :: r, _, k, m => orderOK r true k m
  | .signatureChecked :: r, c, _, m => c && orderOK r c true m
  | .resultReturned true :: r, c, k, m => c && k && orderOK r c k m
  | .resultReturned false :: r, c, k, m => (!m || (c && k)) && orderOK r c k m
  | _ :: r, c, k, m => orderOK r c k m

/-- `CreateAttestation` with explicit state passing: the Go method has a
pointer receiver but writes no field of it, so the outgoing signer state
is the incoming one. -/
def CreateAttestationSt (s : PgpSigner) (payload : List Nat) :
    Except CError Attestation × PgpSigner :=
  (CreateAttestation s payload, s)

/-- Flip bit `j` of byte `i` of a byte string. -/
def flipBit (bs : List Nat) (i j : Nat) : List Nat :=
  bs.set i (bs.getD i 0 ^^^ 2 ^ j)

/-- Whether a Go-style fallible call succeeded. -/
def exceptOk {α : Type} : Except CError α → Bool
  | .ok _ => true
  | .error _ => false

/-- Pointwise exclusive or of two bit streams. -/
def zipXor (l1 l2 : List Bool) : List Bool := List.zipWith Bool.xor l1 l2

/-! # Lemmas -/

/-! ## Bit values -/

theorem natOfBits_lt (l : List Bool) : natOfBits l < 2 ^ l.length := by
  induction l with
  | nil => decide
  | cons b r ih =>
    have h2 : 2 ^ (r.length + 1) = 2 ^ r.length + 2 ^ r.length := by rw [pow_succ]; omega
    cases b <;> simp [natOfBits] <;> omega

theorem val6Bits_natOfBits (a b c d e f : Bool) :
    val6Bits (natOfBits [a, b, c, d, e, f]) = [a, b, c, d, e, f] := by
  revert a b c d e f; decide

theorem byteBits_natOfBits (a b c d e f g h : Bool) :
    byteBits (natOfBits [a, b, c, d, e, f, g, h]) = [a, b, c, d, e, f, g, h] := by
  cases a <;> cases b <;> cases c <;> cases d <;>
    cases e <;> cases f <;> cases g <;> cases h <;> rfl

set_option maxRecDepth 4000 in
theorem natOfBits_byteBits : ∀ b, b < 256 → natOfBits (byteBits b) = b := by decide

theorem natOfBits_val6Bits : ∀ v, v < 64 → natOfBits (val6Bits v) = v := by decide

theorem length_natToBytesBE (n v : Nat) : (natToBytesBE n v).length = n := by
  induction n generalizing v with
  | zero => rfl
  | succ n ih => simp [natToBytesBE, ih]

theorem mem_natToBytesBE_lt (n v : Nat) : ∀ b ∈ natToBytesBE n v, b < 256 := by
  induction n generalizing v with
  | zero => simp [natToBytesBE]
  | succ n ih =>
    intro b hb
    simp only [natToBytesBE, List.mem_cons] at hb
    rcases hb with h | h
    · subst h; exact Nat.mod_lt _ (by decide)
    · exact ih v b h

theorem bytesToNatBE_natToBytesBE (n v : Nat) :
    bytesToNatBE (natToBytesBE n v) = v % 2 ^ (8 * n) := by
  induction n generalizing v with
  | zero => simp [natToBytesBE, bytesToNatBE, Nat.mod_one]
  | succ n ih =>
    have hmul : (2 : Nat) ^ (8 * (n + 1)) = 2 ^ (8 * n) * 2 ^ 8 := by
      rw [← pow_add]; ring_nf
    simp only [natToBytesBE, bytesToNatBE, length_natToBytesBE, ih, hmul, Nat.mod_mul]
    have h256 : (2 : Nat) ^ 8 = 256 := by decide
    rw [h256]
    ring

/-! ## CRC24 register -/

theorem crcStep_lt (s : Nat) (b : Bool) : crcStep s b < 2 ^ 24 := by
  unfold crcStep
  split
  · exact Nat.xor_lt_two_pow (Nat.mod_lt _ (by decide)) (by decide)
  · exact Nat.mod_lt _ (by decide)

theorem crcRun_lt (l : List Bool) (s : Nat) (hs : s < 2 ^ 24) : crcRun s l < 2 ^ 24 := by
  induction l generalizing s with
  | nil => exact hs
  | cons b r ih => exact ih _ (crcStep_lt s b)

theorem crcRun_append (s : Nat) (a b : List Bool) :
    crcRun s (a ++ b) = crcRun (crcRun s a) b := by
  induction a generalizing s with
  | nil => rfl
  | cons x r ih => simp [crcRun, ih]

theorem mul2_mod_pow24 (s : Nat) : s * 2 % 2 ^ 24 = s % 2 ^ 23 * 2 := by
  have h1 : (2 : Nat) ^ 24 = 16777216 := by decide
  have h2 : (2 : Nat) ^ 23 = 8388608 := by decide
  omega

theorem testBit23_div (s : Nat) : s.testBit 23 = decide (s / 2 ^ 23 % 2 = 1) :=
  Nat.testBit_to_div_mod

theorem crcStep_inj (s t : Nat) (b : Bool) (hs : s < 2 ^ 24) (ht : t < 2 ^ 24)
    (h : crcStep s b = crcStep t b) : s = t := by
  have hfin : s % 2 ^ 23 = t % 2 ^ 23 → s.testBit 23 = t.testBit 23 → s = t := by
    intro h1 h2
    rw [testBit23_div, testBit23_div] at h2
    have h2' : s / 2 ^ 23 % 2 = t / 2 ^ 23 % 2 := by
      rcases Nat.lt_or_ge (s / 2 ^ 23 % 2) 2 with _ | h'
      · by_cases hc : s / 2 ^ 23 % 2 = 1 <;> by_cases hd : t / 2 ^ 23 % 2 = 1 <;>
          simp [hc, hd] at h2 ⊢ <;> omega
      · omega
    have e23 : (2 : Nat) ^ 23 = 8388608 := by decide
    have e24 : (2 : Nat) ^ 24 = 16777216 := by decide
    rw [e23] at h1 h2'
    rw [e24] at hs ht
    omega
  unfold crcStep at h
  by_cases hfs : Bool.xor (s.testBit 23) b = true <;>
    by_cases hft : Bool.xor (t.testBit 23) b = true
  · rw [if_pos hfs, if_pos hft] at h
    have h' : s * 2 % 2 ^ 24 = t * 2 % 2 ^ 24 := by
      have := congrArg (fun x => x ^^^ crcPoly) h
      simpa [Nat.xor_cancel_right] using this
    apply hfin
    · rw [mul2_mod_pow24, mul2_mod_pow24] at h'; omega
    · cases hb : b <;> cases hsb : s.testBit 23 <;> cases htb : t.testBit 23 <;>
        simp [hb, hsb, htb] at hfs hft ⊢
  · exfalso
    rw [if_pos hfs, if_neg hft] at h
    have := congrArg (fun x => x.testBit 0) h
    simp only [Nat.testBit_xor] at this
    rw [testBit23_div] at hfs hft
    have e1 : (s * 2 % 2 ^ 24).testBit 0 = false := by
      rw [Nat.testBit_to_div_mod]
      have : (2 : Nat) ^ 24 = 16777216 := by decide
      simp; omega
    have e2 : (t * 2 % 2 ^ 24).testBit 0 = false := by
      rw [Nat.testBit_to_div_mod]
      have : (2 : Nat) ^ 24 = 16777216 := by decide
      simp; omega
    have e3 : crcPoly.testBit 0 = true := by decide
    rw [e1, e2, e3] at this
    simp at this
  · exfalso
    rw [if_neg hfs, if_pos hft] at h
    have := congrArg (fun x => x.testBit 0) h
    simp only [Nat.testBit_xor] at this
    have e1 : (s * 2 % 2 ^ 24).testBit 0 = false := by
      rw [Nat.testBit_to_div_mod]
      have : (2 : Nat) ^ 24 = 16777216 := by decide
      simp; omega
    have e2 : (t * 2 % 2 ^ 24).testBit 0 = false := by
      rw [Nat.testBit_to_div_mod]
      have : (2 : Nat) ^ 24 = 16777216 := by decide
      simp; omega
    have e3 : crcPoly.testBit 0 = true := by decide
    rw [e1, e2, e3] at this
    simp at this
  · rw [if_neg hfs, if_neg hft] at h
    apply hfin
    · rw [mul2_mod_pow24, mul2_mod_pow24] at h; omega
    · cases hb : b <;> cases hsb : s.testBit 23 <;> cases htb : t.testBit 23 <;>
        simp [hb, hsb, htb] at hfs hft ⊢

theorem crcRun_ne (l : List Bool) : ∀ s t, s < 2 ^ 24 → t < 2 ^ 24 → s ≠ t →
    crcRun s l ≠ crcRun t l := by
  induction l with
  | nil => intro s t _ _ h; exact h
  | cons b r ih =>
    intro s t hs ht h
    exact ih _ _ (crcStep_lt s b) (crcStep_lt t b)
      (fun he => h (crcStep_inj s t b hs ht he))

theorem mul2_mod_xor (s t : Nat) :
    (s ^^^ t) * 2 % 2 ^ 24 = (s * 2 % 2 ^ 24) ^^^ (t * 2 % 2 ^ 24) := by
  apply Nat.eq_of_testBit_eq
  intro i
  have h2 : ∀ x : Nat, x * 2 = x <<< 1 := fun x => by simp [Nat.shiftLeft_eq]
  rw [h2, h2, h2]
  simp only [Nat.testBit_mod_two_pow, Nat.testBit_xor, Nat.testBit_shiftLeft]
  cases hd : decide (i < 24) <;> cases he : decide (1 ≤ i) <;>
    cases hs : s.testBit (i - 1) <;> cases ht : t.testBit (i - 1) <;> rfl

theorem feed_xor (s t : Nat) (b c : Bool) :
    Bool.xor ((s ^^^ t).testBit 23) (Bool.xor b c) =
    Bool.xor (Bool.xor (s.testBit 23) b) (Bool.xor (t.testBit 23) c) := by
  rw [Nat.testBit_xor]
  cases hs : s.testBit 23 <;> cases ht : t.testBit 23 <;> cases b <;> cases c <;> rfl

theorem crcStep_xor (s t : Nat) (b c : Bool) :
    crcStep (s ^^^ t) (Bool.xor b c) = crcStep s b ^^^ crcStep t c := by
  have cancel : ∀ x y : Nat, (x ^^^ crcPoly) ^^^ (y ^^^ crcPoly) = x ^^^ y := by
    intro x y
    rw [Nat.xor_comm y crcPoly, ← Nat.xor_assoc, Nat.xor_assoc x crcPoly crcPoly,
      Nat.xor_self, Nat.xor_zero]
  simp only [crcStep, mul2_mod_xor, feed_xor]
  generalize s * 2 % 2 ^ 24 = A
  generalize t * 2 % 2 ^ 24 = B
  generalize Bool.xor (s.testBit 23) b = fs
  generalize Bool.xor (t.testBit 23) c = ft
  cases fs <;> cases ft <;> simp
  · rw [Nat.xor_assoc]
  · ac_rfl
  · exact (cancel A B).symm

theorem crcRun_xor : ∀ l1 l2 : List Bool, l1.length = l2.length → ∀ s t,
    crcRun (s ^^^ t) (zipXor l1 l2) = crcRun s l1 ^^^ crcRun t l2 := by
  intro l1
  induction l1 with
  | nil =>
    intro l2 h s t
    rw [List.length_nil] at h
    cases l2 with
    | nil => rfl
    | cons c r2 => simp at h
  | cons b r ih =>
    intro l2 h s t
    cases l2 with
    | nil => simp at h
    | cons c r2 =>
      simp only [zipXor, List.zipWith_cons_cons, crcRun]
      rw [crcStep_xor]
      exact ih r2 (by simpa using h) _ _

theorem zipXor_cancel : ∀ l1 l2 : List Bool, l1.length = l2.length →
    zipXor l1 (zipXor l1 l2) = l2 := by
  intro l1
  induction l1 with
  | nil =>
    intro l2 h
    rw [List.length_nil] at h
    cases l2 with
    | nil => rfl
    | cons c r2 => simp at h
  | cons b r ih =>
    intro l2 h
    cases l2 with
    | nil => simp at h
    | cons c r2 =>
      simp only [zipXor, List.zipWith_cons_cons] at ih ⊢
      rw [ih r2 (by simpa using h)]
      congr 1
      cases b <;> cases c <;> rfl

theorem length_zipXor (l1 l2 : List Bool) :
    (zipXor l1 l2).length = min l1.length l2.length := by
  simp [zipXor]

/-- If two bit streams share a prefix and a suffix and their middle
segments have equal length but a non-vanishing CRC difference, the CRC
registers after the two streams differ. -/
theorem crcRun_diff (s : Nat) (pre mid mid' post : List Bool)
    (hlen : mid.length = mid'.length) (hs : s < 2 ^ 24)
    (hne : crcRun 0 (zipXor mid mid') ≠ 0) :
    crcRun s (pre ++ (mid ++ post)) ≠ crcRun s (pre ++ (mid' ++ post)) := by
  rw [crcRun_append, crcRun_append, crcRun_append, crcRun_append]
  have hs1 : crcRun s pre < 2 ^ 24 := crcRun_lt _ _ hs
  apply crcRun_ne post _ _ (crcRun_lt _ _ hs1) (crcRun_lt _ _ hs1)
  intro he
  have hlz : mid.length = (zipXor mid mid').length := by
    rw [length_zipXor, hlen, Nat.min_self]
  have h1 : crcRun (crcRun s pre ^^^ 0) (zipXor mid (zipXor mid mid')) =
      crcRun (crcRun s pre) mid ^^^ crcRun 0 (zipXor mid mid') :=
    crcRun_xor mid (zipXor mid mid') hlz _ _
  rw [Nat.xor_zero, zipXor_cancel mid mid' hlen, he] at h1
  have : crcRun 0 (zipXor mid mid') = 0 := by
    have := congrArg (fun x => crcRun (crcRun s pre) mid' ^^^ x) h1
    simpa [← Nat.xor_assoc] using this.symm
  exact hne this

theorem zipXor_val6Bits (v w : Nat) :
    zipXor (val6Bits v) (val6Bits w) = val6Bits (v ^^^ w) := by
  simp only [zipXor, val6Bits, List.zipWith_cons_cons, List.zipWith_nil_right,
    Nat.testBit_xor]

theorem crcRun_val6_ne_zero : ∀ d, d < 64 → d ≠ 0 → crcRun 0 (val6Bits d) ≠ 0 := by
  decide

theorem crcRun_val6_take_ne_zero :
    ∀ d, d < 64 → ∀ u, u < 7 → d ≠ 0 →
      ((val6Bits d).drop u).all (fun x => !x) = true →
      crcRun 0 ((val6Bits d).take u) ≠ 0 := by
  decide

/-! ## Lines -/

theorem splitNL_free (xs : List Nat) (h : ∀ c ∈ xs, c ≠ 10) : splitNL xs = [xs] := by
  induction xs with
  | nil => rfl
  | cons c r ih =>
    have hc : c ≠ 10 := h c (List.mem_cons_self ..)
    rw [splitNL, if_neg hc, ih (fun d hd => h d (List.mem_cons_of_mem _ hd))]

theorem splitNL_append (xs ys : List Nat) (h : ∀ c ∈ xs, c ≠ 10) :
    splitNL (xs ++ 10 :: ys) = xs :: splitNL ys := by
  induction xs with
  | nil => simp [splitNL]
  | cons c r ih =>
    have hc : c ≠ 10 := h c (List.mem_cons_self ..)
    rw [List.cons_append, splitNL, if_neg hc,
      ih (fun d hd => h d (List.mem_cons_of_mem _ hd))]

/-! ## Radix-64 -/

theorem b64val_b64chr : ∀ v, v < 64 → b64val (b64chr v) = some v := by decide

theorem b64chr_ne_10 : ∀ v, v < 64 → b64chr v ≠ 10 := by decide

theorem b64chr_lt_256 : ∀ v, v < 64 → b64chr v < 256 := by decide

theorem b64val_lt (c v : Nat) (h : b64val c = some v) : v < 64 := by
  unfold b64val at h
  split at h <;> first
    | (injection h with h'; omega)
    | (split at h <;> first
        | (injection h with h'; omega)
        | (split at h <;> first
            | (injection h with h'; omega)
            | (split at h <;> first
                | (injection h with h'; omega)
                | (split at h
                   · injection h with h'; omega
                   · exact absurd h (by simp)))))

set_option maxRecDepth 8000 in
theorem b64chr_b64val : ∀ c, c < 256 → ∀ v, v < 64 → b64val c = some v → b64chr v = c := by
  decide

theorem b64vals_append_some (t1 t2 a b : List Nat) (h1 : b64vals t1 = some a)
    (h2 : b64vals t2 = some b) : b64vals (t1 ++ t2) = some (a ++ b) := by
  induction t1 generalizing a with
  | nil =>
    simp only [b64vals] at h1
    injection h1 with h1
    subst h1
    simpa using h2
  | cons c r ih =>
    rw [b64vals] at h1
    cases hv : b64val c <;> rw [hv] at h1
    · exact absurd h1 (by simp)
    · cases hr : b64vals r <;> rw [hr] at h1
      · exact absurd h1 (by simp)
      · injection h1 with h1
        subst h1
        rw [List.cons_append, b64vals, hv, ih _ hr]
        rfl

theorem b64vals_append_split (t1 t2 vs : List Nat)
    (h : b64vals (t1 ++ t2) = some vs) :
    ∃ a b, b64vals t1 = some a ∧ b64vals t2 = some b ∧ vs = a ++ b := by
  induction t1 generalizing vs with
  | nil =>
    exact ⟨[], vs, rfl, by simpa using h, rfl⟩
  | cons c r ih =>
    rw [List.cons_append, b64vals] at h
    cases hv : b64val c with
    | none => rw [hv] at h; exact absurd h (by simp)
    | some v =>
      rw [hv] at h
      cases hr : b64vals (r ++ t2) with
      | none => rw [hr] at h; exact absurd h (by simp)
      | some ws =>
        rw [hr] at h
        injection h with h
        obtain ⟨a, b, ha, hb, hab⟩ := ih _ hr
        refine ⟨v :: a, b, ?_, hb, ?_⟩
        · rw [b64vals, hv, ha]
        · rw [← h, hab, List.cons_append]

theorem b64vals_none (t1 t2 : List Nat) (h1 : b64vals t1 = none) :
    b64vals (t1 ++ t2) = none := by
  induction t1 with
  | nil => simp [b64vals] at h1
  | cons c r ih =>
    rw [b64vals] at h1
    rw [List.cons_append, b64vals]
    cases hv : b64val c with
    | none => cases b64vals (r ++ t2) <;> rfl
    | some v =>
      rw [hv] at h1
      cases hr : b64vals r with
      | none => rw [ih hr]
      | some ws => rw [hr] at h1; exact absurd h1 (by simp)

theorem b64vals_map (vs : List Nat) (h : ∀ v ∈ vs, v < 64) :
    b64vals (vs.map b64chr) = some vs := by
  induction vs with
  | nil => rfl
  | cons v r ih =>
    have hv : v < 64 := h v (List.mem_cons_self ..)
    simp only [List.map_cons, b64vals, b64val_b64chr v hv,
      ih (fun d hd => h d (List.mem_cons_of_mem _ hd))]

theorem bitsOfVals_append (a b : List Nat) :
    bitsOfVals (a ++ b) = bitsOfVals a ++ bitsOfVals b := by
  induction a with
  | nil => rfl
  | cons v r ih => simp [bitsOfVals, ih]

theorem length_bitsOfVals (a : List Nat) : (bitsOfVals a).length = 6 * a.length := by
  induction a with
  | nil => rfl
  | cons v r ih => simp [bitsOfVals, val6Bits, ih]; ring

/-! ## Bit-stream chunking -/

theorem natOfBits6_lt (a b c d e f : Bool) : natOfBits [a, b, c, d, e, f] < 64 := by
  have h := natOfBits_lt [a, b, c, d, e, f]
  simpa using h

theorem chunk6_lt (bits : List Bool) : ∀ v ∈ chunk6 bits, v < 64 := by
  induction bits using chunk6.induct <;> intro v hv <;> simp only [chunk6] at hv
  case case1 => simp at hv
  case case7 a b c d e f rest ih =>
    rcases List.mem_cons.mp hv with h | h
    · subst h; exact natOfBits6_lt ..
    · exact ih v h
  all_goals
    rw [List.mem_singleton] at hv
  all_goals
    subst hv
  all_goals
    exact natOfBits6_lt ..

theorem chunk6_bits (bits : List Bool) :
    ∃ p, p < 6 ∧ bitsOfVals (chunk6 bits) = bits ++ List.replicate p false := by
  induction bits using chunk6.induct
  case case1 => exact ⟨0, by omega, rfl⟩
  case case2 a =>
    exact ⟨5, by omega, by
      simp [chunk6, bitsOfVals, val6Bits_natOfBits, List.replicate]⟩
  case case3 a b =>
    exact ⟨4, by omega, by
      simp [chunk6, bitsOfVals, val6Bits_natOfBits, List.replicate]⟩
  case case4 a b c =>
    exact ⟨3, by omega, by
      simp [chunk6, bitsOfVals, val6Bits_natOfBits, List.replicate]⟩
  case case5 a b c d =>
    exact ⟨2, by omega, by
      simp [chunk6, bitsOfVals, val6Bits_natOfBits, List.replicate]⟩
  case case6 a b c d e =>
    exact ⟨1, by omega, by
      simp [chunk6, bitsOfVals, val6Bits_natOfBits, List.replicate]⟩
  case case7 a b c d e f rest ih =>
    obtain ⟨p, hp, heq⟩ := ih
    exact ⟨p, hp, by
      simp only [chunk6, bitsOfVals, val6Bits_natOfBits, heq, List.cons_append,
        List.append_assoc, List.nil_append]⟩

theorem exists_cons8 : ∀ (l : List Bool), 8 ≤ l.length →
    ∃ b1 b2 b3 b4 b5 b6 b7 b8 r,
      l = b1 :: b2 :: b3 :: b4 :: b5 :: b6 :: b7 :: b8 :: r := by
  intro l h
  match l with
  | b1 :: b2 :: b3 :: b4 :: b5 :: b6 :: b7 :: b8 :: r =>
    exact ⟨b1, b2, b3, b4, b5, b6, b7, b8, r, rfl⟩
  | [] | [_] | [_, _] | [_, _, _] | [_, _, _, _] | [_, _, _, _, _]
  | [_, _, _, _, _, _] | [_, _, _, _, _, _, _] => simp at h

theorem small_of_not_cons8 (l : List Bool)
    (hsmall : ∀ (b1 b2 b3 b4 b5 b6 b7 b8 : Bool) (r : List Bool),
      l = b1 :: b2 :: b3 :: b4 :: b5 :: b6 :: b7 :: b8 :: r → False) :
    l.length < 8 := by
  by_contra h
  push_neg at h
  obtain ⟨b1, b2, b3, b4, b5, b6, b7, b8, r, heq⟩ := exists_cons8 l h
  exact hsmall b1 b2 b3 b4 b5 b6 b7 b8 r heq

theorem chunkBytes_append_bytes (B : List Nat) (hB : ∀ b ∈ B, b < 256)
    (tail : List Bool) (C : List Nat) (h : chunkBytes tail = some C) :
    chunkBytes (bytesToBits B ++ tail) = some (B ++ C) := by
  induction B with
  | nil => simpa using h
  | cons b r ih =>
    have hb : b < 256 := hB b (List.mem_cons_self ..)
    have ih' := ih (fun d hd => hB d (List.mem_cons_of_mem _ hd))
    simp only [bytesToBits, byteBits, List.cons_append, List.append_assoc]
    rw [chunkBytes]
    simp only [List.nil_append]
    rw [ih']
    have hn : natOfBits [b.testBit 7, b.testBit 6, b.testBit 5, b.testBit 4,
        b.testBit 3, b.testBit 2, b.testBit 1, b.testBit 0] = b := by
      have := natOfBits_byteBits b hb
      simpa [byteBits] using this
    rw [hn]

theorem chunkBytes_replicate : ∀ p, p < 8 →
    chunkBytes (List.replicate p false) = some [] := by
  decide

theorem chunkBytes_small_eq (l : List Bool) (hlen : l.length < 8) :
    chunkBytes l = if l.all (fun b => !b) then some [] else none := by
  match l with
  | [] => rfl
  | [_] => rfl
  | [_, _] => rfl
  | [_, _, _] => rfl
  | [_, _, _, _] => rfl
  | [_, _, _, _, _] => rfl
  | [_, _, _, _, _, _] => rfl
  | [_, _, _, _, _, _, _] => rfl
  | _ :: _ :: _ :: _ :: _ :: _ :: _ :: _ :: _ => simp at hlen; omega

theorem chunkBytes_some_spec (bits : List Bool) : ∀ B, chunkBytes bits = some B →
    bytesToBits B = bits.take (8 * B.length) ∧
    ((bits.drop (8 * B.length)).all (fun x => !x) = true) ∧
    8 * B.length ≤ bits.length ∧ bits.length < 8 * B.length + 8 := by
  induction bits using chunkBytes.induct with
  | case1 b1 b2 b3 b4 b5 b6 b7 b8 rest B' hx ih =>
    intro B h
    rw [chunkBytes, hx] at h
    injection h with h
    subst h
    obtain ⟨ih1, ih2, ih3, ih4⟩ := ih B' hx
    have harith : 8 * (B'.length + 1) = 8 * B'.length + 8 := by ring
    refine ⟨?_, ?_, ?_, ?_⟩
    · show byteBits (natOfBits [b1, b2, b3, b4, b5, b6, b7, b8]) ++ bytesToBits B' = _
      rw [byteBits_natOfBits]
      simp only [List.length_cons, harith, List.take_succ_cons, List.cons_append,
        List.nil_append]
      rw [ih1]
    · simp only [List.length_cons, harith, List.drop_succ_cons]
      exact ih2
    · simp only [List.length_cons, harith]
      omega
    · simp only [List.length_cons, harith] at *
      omega
  | case2 b1 b2 b3 b4 b5 b6 b7 b8 rest hx ih =>
    intro B h
    rw [chunkBytes, hx] at h
    exact absurd h (by simp)
  | case3 rest hsmall hall =>
    intro B h
    have hlen : rest.length < 8 := small_of_not_cons8 rest hsmall
    rw [chunkBytes_small_eq rest hlen, if_pos hall] at h
    injection h with h
    subst h
    exact ⟨rfl, by simpa using hall, by simp, by simpa using hlen⟩
  | case4 rest hsmall hall =>
    intro B h
    have hlen : rest.length < 8 := small_of_not_cons8 rest hsmall
    rw [chunkBytes_small_eq rest hlen, if_neg hall] at h
    exact absurd h (by simp)

theorem decodeB64_encodeB64 (B : List Nat) (hB : ∀ b ∈ B, b < 256) :
    decodeB64 (encodeB64 B) = some B := by
  rw [decodeB64, encodeB64, b64vals_map _ (chunk6_lt _)]
  show chunkBytes (bitsOfVals (chunk6 (bytesToBits B))) = some B
  obtain ⟨p, hp, heq⟩ := chunk6_bits (bytesToBits B)
  rw [heq, chunkBytes_append_bytes B hB _ [] (chunkBytes_replicate p (by omega)),
    List.append_nil]

/-! ## A bit flip in the radix-64 body always changes the CRC24 -/

theorem val6_all_false_eq_zero :
    ∀ v, v < 64 → ((val6Bits v).all (fun x => !x) = true) → v = 0 := by decide

theorem val6_drop_xor :
    ∀ v, v < 64 → ∀ w, w < 64 → ∀ u, u < 7 →
      ((val6Bits v).drop u).all (fun x => !x) = true →
      ((val6Bits w).drop u).all (fun x => !x) = true →
      ((val6Bits (v ^^^ w)).drop u).all (fun x => !x) = true := by decide

/-- Decoding two radix-64 texts that differ in exactly one character
yields bodies with different CRC24 checksums (when both decodes
succeed). -/
theorem crc24_decode_flip (u w : List Nat) (c c' : Nat) (B B' : List Nat)
    (hcc : c ≠ c') (hcb : c < 256) (hcb' : c' < 256)
    (hB : decodeB64 (u ++ c :: w) = some B)
    (hB' : decodeB64 (u ++ c' :: w) = some B') :
    crc24 B ≠ crc24 B' := by
  -- unpack the two decodes
  rw [decodeB64] at hB hB'
  cases hv : b64vals (u ++ c :: w) with
  | none => rw [hv] at hB; exact absurd hB (by simp)
  | some vs =>
  rw [hv] at hB
  cases hv' : b64vals (u ++ c' :: w) with
  | none => rw [hv'] at hB'; exact absurd hB' (by simp)
  | some vs' =>
  rw [hv'] at hB'
  obtain ⟨va, vcw, hva, hcw, hvs⟩ := b64vals_append_split _ _ _ hv
  obtain ⟨va2, vcw', hva2, hcw', hvs'⟩ := b64vals_append_split _ _ _ hv'
  have hva' : va2 = va := by rw [hva] at hva2; injection hva2 with h; exact h.symm
  subst va2
  -- split the cons parts
  rw [b64vals] at hcw hcw'
  cases hvc : b64val c with
  | none => rw [hvc] at hcw; exact absurd hcw (by simp)
  | some v =>
  rw [hvc] at hcw
  cases hvc' : b64val c' with
  | none => rw [hvc'] at hcw'; exact absurd hcw' (by simp)
  | some v' =>
  rw [hvc'] at hcw'
  cases hw : b64vals w with
  | none => rw [hw] at hcw; exact absurd hcw (by simp)
  | some vb =>
  rw [hw] at hcw hcw'
  injection hcw with hcw
  injection hcw' with hcw'
  subst hcw hcw' hvs hvs'
  -- value facts
  have hvlt : v < 64 := b64val_lt c v hvc
  have hvlt' : v' < 64 := b64val_lt c' v' hvc'
  have hne : v ≠ v' := by
    intro he
    exact hcc (by rw [← b64chr_b64val c hcb v hvlt hvc, ← b64chr_b64val c' hcb' v' hvlt' hvc', he])
  have hdlt : v ^^^ v' < 64 := Nat.xor_lt_two_pow (n := 6) hvlt hvlt'
  have hdne : v ^^^ v' ≠ 0 := fun h => hne (Nat.xor_eq_zero.mp h)
  -- the two bit streams
  set pre := bitsOfVals va with hpre
  set post := bitsOfVals vb with hpost
  have hbits : bitsOfVals (va ++ v :: vb) = pre ++ (val6Bits v ++ post) := by
    rw [bitsOfVals_append]; rfl
  have hbits' : bitsOfVals (va ++ v' :: vb) = pre ++ (val6Bits v' ++ post) := by
    rw [bitsOfVals_append]; rfl
  have hB2 : chunkBytes (bitsOfVals (va ++ v :: vb)) = some B := hB
  have hB2' : chunkBytes (bitsOfVals (va ++ v' :: vb)) = some B' := hB'
  rw [hbits] at hB2
  rw [hbits'] at hB2'
  obtain ⟨hs1, hs2, hs3, hs4⟩ := chunkBytes_some_spec _ _ hB2
  obtain ⟨hs1', hs2', hs3', hs4'⟩ := chunkBytes_some_spec _ _ hB2'
  -- the two decoded bodies have the same length
  have hlen6 : (val6Bits v).length = 6 := rfl
  have hlen6' : (val6Bits v').length = 6 := rfl
  have hleq : B.length = B'.length := by
    have h1 : (pre ++ (val6Bits v ++ post)).length = pre.length + (6 + post.length) := by
      simp [hlen6]
    have h1' : (pre ++ (val6Bits v' ++ post)).length = pre.length + (6 + post.length) := by
      simp [hlen6']
    rw [h1] at hs3 hs4
    rw [h1'] at hs3' hs4'
    omega
  set m8 := 8 * B.length with hm8
  have hm8' : 8 * B'.length = m8 := by rw [hm8, hleq]
  rw [hm8'] at hs1' hs2'
  -- the CRCs are those of the truncated bit streams
  have hcrc : crc24 B = crcRun crcInit ((pre ++ (val6Bits v ++ post)).take m8) := by
    rw [crc24, hs1]
  have hcrc' : crc24 B' = crcRun crcInit ((pre ++ (val6Bits v' ++ post)).take m8) := by
    rw [crc24, hs1']
  rw [hcrc, hcrc']
  have hinit : crcInit < 2 ^ 24 := by decide
  rcases Nat.lt_or_ge m8 (pre.length + 6) with hcut | hfull
  · rcases le_or_lt m8 pre.length with hlo | hhi
    · -- the window lies entirely beyond the decoded bytes: impossible
      exfalso
      have hdropv : ((pre ++ (val6Bits v ++ post)).drop m8).all (fun x => !x) = true := hs2
      have hdropv' : ((pre ++ (val6Bits v' ++ post)).drop m8).all (fun x => !x) = true := hs2'
      rw [List.drop_append_eq_append_drop] at hdropv hdropv'
      have hd0 : m8 - pre.length = 0 := by omega
      rw [hd0, List.drop_zero] at hdropv hdropv'
      rw [List.all_append, List.all_append] at hdropv hdropv'
      have h1 : (val6Bits v).all (fun x => !x) = true := by
        have := Bool.and_eq_true_iff.mp hdropv
        exact (Bool.and_eq_true_iff.mp this.2).1
      have h1' : (val6Bits v').all (fun x => !x) = true := by
        have := Bool.and_eq_true_iff.mp hdropv'
        exact (Bool.and_eq_true_iff.mp this.2).1
      exact hne ((val6_all_false_eq_zero v hvlt h1).trans
        (val6_all_false_eq_zero v' hvlt' h1').symm)
    · -- the window is cut by the truncation
      set u8 := m8 - pre.length with hu8
      have hu8lt : u8 < 6 := by omega
      have hu8pos : 0 < u8 := by omega
      have htk : ∀ mid : List Bool, mid.length = 6 →
          (pre ++ (mid ++ post)).take m8 = pre ++ (mid.take u8 ++ []) := by
        intro mid hmid
        rw [List.take_append_eq_append_take, List.take_of_length_le (by omega),
          List.take_append_eq_append_take, hmid]
        have : m8 - pre.length - 6 = 0 := by omega
        rw [this, List.take_zero, hu8]
      have hdr : ∀ mid : List Bool, mid.length = 6 →
          (pre ++ (mid ++ post)).drop m8 = mid.drop u8 ++ post := by
        intro mid hmid
        rw [List.drop_append_eq_append_drop, List.drop_of_length_le (by omega),
          List.drop_append_eq_append_drop, hmid]
        have : m8 - pre.length - 6 = 0 := by omega
        rw [this, List.drop_zero, List.nil_append, hu8]
      rw [htk _ hlen6, htk _ hlen6']
      have hdv : ((val6Bits v).drop u8).all (fun x => !x) = true := by
        have := hs2
        rw [hdr _ hlen6, List.all_append] at this
        exact (Bool.and_eq_true_iff.mp this).1
      have hdv' : ((val6Bits v').drop u8).all (fun x => !x) = true := by
        have := hs2'
        rw [hdr _ hlen6', List.all_append] at this
        exact (Bool.and_eq_true_iff.mp this).1
      apply crcRun_diff crcInit pre _ _ []
      · simp [hlen6, hlen6']
      · exact hinit
      · have hz : zipXor ((val6Bits v).take u8) ((val6Bits v').take u8) =
            (val6Bits (v ^^^ v')).take u8 := by
          rw [zipXor, ← List.take_zipWith, ← zipXor, zipXor_val6Bits]
        rw [hz]
        exact crcRun_val6_take_ne_zero (v ^^^ v') hdlt u8 (by omega) hdne
          (val6_drop_xor v hvlt v' hvlt' u8 (by omega) hdv hdv')
  · -- the window is fully inside the decoded bytes
    have htk : ∀ mid : List Bool, mid.length = 6 →
        (pre ++ (mid ++ post)).take m8 = pre ++ (mid ++ post.take (m8 - pre.length - 6)) := by
      intro mid hmid
      rw [List.take_append_eq_append_take, List.take_of_length_le (by omega),
        List.take_append_eq_append_take, hmid, List.take_of_length_le (by omega)]
    rw [htk _ hlen6, htk _ hlen6']
    apply crcRun_diff crcInit pre _ _ _
    · rw [hlen6, hlen6']
    · exact hinit
    · rw [zipXor_val6Bits]
      exact crcRun_val6_ne_zero (v ^^^ v') hdlt hdne

/-! ## Armor framing -/

theorem headerBytes_ne_10 (ty : ArmorType) : ∀ ch ∈ headerBytes ty, ch ≠ 10 := by
  cases ty <;> decide

theorem footerBytes_ne_10 (ty : ArmorType) : ∀ ch ∈ footerBytes ty, ch ≠ 10 := by
  cases ty <;> decide

theorem armorTypeOf_header (ty : ArmorType) : armorTypeOf (headerBytes ty) = some ty := by
  cases ty <;> decide

theorem mem_encodeB64 (B : List Nat) : ∀ ch ∈ encodeB64 B, ch ≠ 10 ∧ ch < 256 := by
  intro ch hch
  rw [encodeB64, List.mem_map] at hch
  obtain ⟨v, hv, rfl⟩ := hch
  have hvlt : v < 64 := chunk6_lt _ v hv
  exact ⟨b64chr_ne_10 v hvlt, b64chr_lt_256 v hvlt⟩

theorem crcLine_ne_10 (B : List Nat) :
    ∀ ch ∈ 61 :: encodeB64 (natToBytesBE 3 (crc24 B)), ch ≠ 10 := by
  intro ch hch
  rcases List.mem_cons.mp hch with h | h
  · subst h; decide
  · exact (mem_encodeB64 _ ch h).1

theorem splitNL_encodeArmor (ty : ArmorType) (B : List Nat) :
    splitNL (encodeArmor ty B) =
      [headerBytes ty, encodeB64 B, 61 :: encodeB64 (natToBytesBE 3 (crc24 B)),
       footerBytes ty, []] := by
  have hsh : encodeArmor ty B =
      headerBytes ty ++ 10 :: (encodeB64 B ++ 10 ::
        ((61 :: encodeB64 (natToBytesBE 3 (crc24 B))) ++ 10 ::
          (footerBytes ty ++ 10 :: []))) := by
    simp [encodeArmor]
  rw [hsh, splitNL_append _ _ (headerBytes_ne_10 ty),
    splitNL_append _ _ (fun ch hch => (mem_encodeB64 B ch hch).1),
    splitNL_append _ _ (crcLine_ne_10 B),
    splitNL_append _ _ (footerBytes_ne_10 ty)]
  rfl

theorem crc24_lt (B : List Nat) : crc24 B < 2 ^ 24 :=
  crcRun_lt _ _ (by decide)

theorem decodeArmor_encodeArmor (ty : ArmorType) (B : List Nat)
    (hB : ∀ b ∈ B, b < 256) : decodeArmor (encodeArmor ty B) = some (ty, B) := by
  rw [decodeArmor, splitNL_encodeArmor]
  show (match armorTypeOf (headerBytes ty) with
    | some ty' =>
      if footerBytes ty = footerBytes ty' ∧ ([] : List Nat) = [] then
        match decodeB64 (encodeB64 (natToBytesBE 3 (crc24 B))), decodeB64 (encodeB64 B) with
        | some cb, some B2 =>
          if cb.length = 3 ∧ bytesToNatBE cb = crc24 B2 then some (ty', B2) else none
        | _, _ => none
      else none
    | none => none) = some (ty, B)
  rw [armorTypeOf_header]
  show (if footerBytes ty = footerBytes ty ∧ ([] : List Nat) = [] then _ else none) = _
  rw [if_pos ⟨rfl, rfl⟩]
  rw [decodeB64_encodeB64 _ (mem_natToBytesBE_lt 3 _), decodeB64_encodeB64 B hB]
  show (if (natToBytesBE 3 (crc24 B)).length = 3 ∧
      bytesToNatBE (natToBytesBE 3 (crc24 B)) = crc24 B then _ else none) = _
  rw [if_pos ⟨length_natToBytesBE 3 _, by
    rw [bytesToNatBE_natToBytesBE]
    exact Nat.mod_eq_of_lt (by simpa using crc24_lt B)⟩]

/-! ## Key material -/

theorem flagsByte_lt (k : Key) : flagsByte k < 8 := by
  unfold flagsByte
  cases k.canSign <;> cases k.hasPrivate <;> cases k.privValid <;> decide

theorem flagsByte_testBits (a b c : Bool) :
    ((cond a 1 0 + cond b 2 0 + cond c 4 0 : Nat).testBit 0 = a ∧
     (cond a 1 0 + cond b 2 0 + cond c 4 0 : Nat).testBit 1 = b ∧
     (cond a 1 0 + cond b 2 0 + cond c 4 0 : Nat).testBit 2 = c) := by
  cases a <;> cases b <;> cases c <;> exact ⟨rfl, rfl, rfl⟩

theorem parseKeys_serializeKeys (ks : List Key) (hks : ∀ k ∈ ks, k.secret < 2 ^ 160) :
    parseKeys (serializeKeys ks) = some ks := by
  induction ks with
  | nil => simp [serializeKeys, parseKeys]
  | cons k r ih =>
    have hs : k.secret < 2 ^ 160 := hks k (List.mem_cons_self ..)
    have ih' := ih (fun d hd => hks d (List.mem_cons_of_mem _ hd))
    show parseKeys (serializeKey k ++ serializeKeys r) = _
    rw [serializeKey, List.cons_append, parseKeys]
    have hlen : 20 ≤ (natToBytesBE 20 k.secret ++ serializeKeys r).length := by
      simp [length_natToBytesBE]
    rw [if_pos ⟨flagsByte_lt k, hlen⟩]
    rw [List.drop_left' (length_natToBytesBE 20 _), ih']
    have htake : (natToBytesBE 20 k.secret ++ serializeKeys r).take 20 =
        natToBytesBE 20 k.secret := List.take_left' (length_natToBytesBE 20 _)
    rw [htake]
    have hsec : bytesToNatBE (natToBytesBE 20 k.secret) = k.secret := by
      rw [bytesToNatBE_natToBytesBE]
      exact Nat.mod_eq_of_lt (by simpa using hs)
    obtain ⟨hb0, hb1, hb2⟩ := flagsByte_testBits k.canSign k.hasPrivate k.privValid
    have hkey : Key.mk (bytesToNatBE (natToBytesBE 20 k.secret))
        ((flagsByte k).testBit 0) ((flagsByte k).testBit 1)
        ((flagsByte k).testBit 2) = k := by
      unfold flagsByte
      rw [hsec, hb0, hb1, hb2]
    rw [hkey]

theorem mem_serializeKeys_lt (ks : List Key) :
    ∀ b ∈ serializeKeys ks, b < 256 := by
  induction ks with
  | nil => simp [serializeKeys]
  | cons k r ih =>
    intro b hb
    rw [serializeKeys, serializeKey, List.cons_append, List.mem_cons] at hb
    rcases hb with h | h
    · subst h; exact lt_trans (flagsByte_lt k) (by decide)
    · rcases List.mem_append.mp h with h | h
      · exact mem_natToBytesBE_lt 20 _ b h
      · exact ih b h

theorem readArmoredKeyRing_serialize (ks : List Key)
    (hks : ∀ k ∈ ks, k.secret < 2 ^ 160) :
    readArmoredKeyRing (serializeKeyRing .publicKeyBlock ks) = .ok ks ∧
    readArmoredKeyRing (serializeKeyRing .privateKeyBlock ks) = .ok ks := by
  constructor <;>
  · rw [readArmoredKeyRing, serializeKeyRing,
      decodeArmor_encodeArmor _ _ (mem_serializeKeys_lt ks)]
    show (match parseKeys (serializeKeys ks) with
      | some ks' => Except.ok ks'
      | none => Except.error CError.KeyParseError) = _
    rw [parseKeys_serializeKeys ks hks]

theorem length_keyIdBytes (k : Key) : (keyIdBytes k).length = 8 := by
  simp [keyIdBytes, fingerprint, length_natToBytesBE]

/-! ## Packet stream -/

theorem sigCompute_lt (s h : Nat) : sigCompute s h < 2 ^ 64 :=
  Nat.mod_lt _ (by decide)

theorem parseSig_serializeSig (sp : SigPacket) (hk : sp.keyID.length = 8)
    (ha : sp.hashAlgo = hashAlgoId) (hs : sp.sigVal < 2 ^ 64) :
    parseSig (serializeSig sp) = some sp := by
  obtain ⟨kid, algo, sv⟩ := sp
  simp only at hk ha hs
  subst ha
  rw [serializeSig, parseSig]
  have hlen : (kid ++ hashAlgoId :: natToBytesBE 8 sv).length = 17 := by
    simp [hk, length_natToBytesBE, hashAlgoId]
  rw [if_pos hlen, List.drop_left' hk]
  show (if hashAlgoId = hashAlgoId then
    some (SigPacket.mk ((kid ++ hashAlgoId :: natToBytesBE 8 sv).take 8)
      hashAlgoId (bytesToNatBE (natToBytesBE 8 sv)))
    else none) = _
  rw [if_pos rfl, List.take_left' hk]
  have : bytesToNatBE (natToBytesBE 8 sv) = sv := by
    rw [bytesToNatBE_natToBytesBE]
    exact Nat.mod_eq_of_lt (by simpa using hs)
  rw [this]

theorem stream_parts (payload : List Nat) (hlen : payload.length < 2 ^ 64)
    (tail : List Nat) :
    let st := natToBytesBE 8 payload.length ++ payload ++ tail
    st.take 8 = natToBytesBE 8 payload.length ∧
    bytesToNatBE (st.take 8) = payload.length ∧
    (st.drop 8).take payload.length = payload ∧
    st.drop (8 + payload.length) = tail ∧
    st.length = 8 + payload.length + tail.length := by
  intro st
  have h1 : st.take 8 = natToBytesBE 8 payload.length := by
    show ((natToBytesBE 8 payload.length ++ payload) ++ tail).take 8 = _
    rw [List.append_assoc, List.take_left' (length_natToBytesBE 8 _)]
  have h2 : bytesToNatBE (st.take 8) = payload.length := by
    rw [h1, bytesToNatBE_natToBytesBE]
    exact Nat.mod_eq_of_lt (by simpa using hlen)
  have hd : st.drop 8 = payload ++ tail := by
    show ((natToBytesBE 8 payload.length ++ payload) ++ tail).drop 8 = _
    rw [List.append_assoc, List.drop_left' (length_natToBytesBE 8 _)]
  have h3 : (st.drop 8).take payload.length = payload := by
    rw [hd, List.take_left]
  have h4 : st.drop (8 + payload.length) = tail := by
    rw [← List.drop_drop, hd, List.drop_left]
  have h5 : st.length = 8 + payload.length + tail.length := by
    show ((natToBytesBE 8 payload.length ++ payload) ++ tail).length = _
    simp [length_natToBytesBE]
    omega
  exact ⟨h1, h2, h3, h4, h5⟩

theorem readMessage_eq (payload tail : List Nat) (hlen : payload.length < 2 ^ 64)
    (keyring : List Key) :
    readMessage (natToBytesBE 8 payload.length ++ payload ++ tail) keyring =
      (if tail.isEmpty then
        .ok ⟨payload, none, none⟩
      else
        match parseSig tail with
        | none => .ok ⟨payload, none, some .SignatureMismatchError⟩
        | some sp =>
          match lookupKey keyring sp.keyID with
          | none => .error .KeyNotFoundError
          | some k =>
            if checkSig k sp payload then .ok ⟨payload, some sp, none⟩
            else .ok ⟨payload, some sp, some .SignatureMismatchError⟩) := by
  obtain ⟨h1, h2, h3, h4, h5⟩ := stream_parts payload hlen tail
  simp only [readMessage, h5, h2]
  rw [if_neg (by omega), if_neg (by omega), h3, h4]

theorem mem_serializeSig_lt (sp : SigPacket) (hk : ∀ b ∈ sp.keyID, b < 256)
    (ha : sp.hashAlgo = hashAlgoId) : ∀ b ∈ serializeSig sp, b < 256 := by
  intro b hb
  rw [serializeSig] at hb
  rcases List.mem_append.mp hb with h | h
  · exact hk b h
  · rcases List.mem_cons.mp h with h | h
    · subst h; rw [ha]; decide
    · exact mem_natToBytesBE_lt 8 _ b h

theorem mem_keyIdBytes_lt (k : Key) : ∀ b ∈ keyIdBytes k, b < 256 := by
  intro b hb
  rw [keyIdBytes] at hb
  exact mem_natToBytesBE_lt 20 _ b (List.drop_subset _ _ hb)

theorem mem_serializeStream_lt (payload : List Nat) (hpb : ∀ b ∈ payload, b < 256)
    (spOpt : Option SigPacket)
    (hsp : ∀ sp, spOpt = some sp → (∀ b ∈ sp.keyID, b < 256) ∧ sp.hashAlgo = hashAlgoId) :
    ∀ b ∈ serializeStream payload spOpt, b < 256 := by
  intro b hb
  rw [serializeStream.eq_def] at hb
  rcases List.mem_append.mp hb with h | h
  · rcases List.mem_append.mp h with h | h
    · exact mem_natToBytesBE_lt 8 _ b h
    · exact hpb b h
  · cases spOpt with
    | none => simp at h
    | some sp =>
      obtain ⟨hk, ha⟩ := hsp sp rfl
      exact mem_serializeSig_lt sp hk ha b h

theorem length_serializeSig_mk (k : Key) (payload : List Nat) :
    (serializeSig (mkSigPacket k payload)).length = 17 := by
  simp [serializeSig, mkSigPacket, length_keyIdBytes, length_natToBytesBE, hashAlgoId]

theorem readMessage_serializeStream_some (payload : List Nat)
    (hpl : payload.length < 2 ^ 64) (k : Key) (ring : List Key) :
    readMessage (serializeStream payload (some (mkSigPacket k payload))) ring =
      match lookupKey ring (keyIdBytes k) with
      | none => .error .KeyNotFoundError
      | some k' =>
        if checkSig k' (mkSigPacket k payload) payload then
          .ok ⟨payload, some (mkSigPacket k payload), none⟩
        else
          .ok ⟨payload, some (mkSigPacket k payload), some .SignatureMismatchError⟩ := by
  have hE : serializeStream payload (some (mkSigPacket k payload)) =
      natToBytesBE 8 payload.length ++ payload ++ serializeSig (mkSigPacket k payload) := rfl
  rw [hE, readMessage_eq payload _ hpl ring]
  have hne : (serializeSig (mkSigPacket k payload)).isEmpty = false := by
    simp [serializeSig]
  rw [hne]
  simp only [Bool.false_eq_true, if_false]
  rw [parseSig_serializeSig (mkSigPacket k payload) (length_keyIdBytes k) rfl
    (sigCompute_lt _ _)]
  rfl

theorem readMessage_serializeStream_none (payload : List Nat)
    (hpl : payload.length < 2 ^ 64) (ring : List Key) :
    readMessage (serializeStream payload none) ring = .ok ⟨payload, none, none⟩ := by
  have hE : serializeStream payload none =
      natToBytesBE 8 payload.length ++ payload ++ [] := rfl
  rw [hE, readMessage_eq payload [] hpl ring]
  rfl

/-- Value of `verifyPgp` on a well-formed attestation over `payload`
signed by `k`, against any public-key input that parses to `ring`. -/
theorem verifyPgp_attestation (payload : List Nat) (k : Key) (pubBytes : List Nat)
    (ring : List Key) (hpl : payload.length < 2 ^ 64) (hpb : ∀ b ∈ payload, b < 256)
    (hring : readArmoredKeyRing pubBytes = .ok ring) :
    verifyPgp (encodeArmor .signature
        (serializeStream payload (some (mkSigPacket k payload)))) pubBytes =
      match lookupKey ring (keyIdBytes k) with
      | none => (none, some .KeyNotFoundError)
      | some k' =>
        if checkSig k' (mkSigPacket k payload) payload then (some payload, none)
        else (none, some .SignatureMismatchError) := by
  have hdec := decodeArmor_encodeArmor .signature
    (serializeStream payload (some (mkSigPacket k payload)))
    (mem_serializeStream_lt payload hpb _ (fun sp hsp => by
      injection hsp with h
      subst h
      exact ⟨mem_keyIdBytes_lt k, rfl⟩))
  have hread := readMessage_serializeStream_some payload hpl k ring
  cases hlk : lookupKey ring (keyIdBytes k) with
  | none =>
    have hread' : readMessage (serializeStream payload (some (mkSigPacket k payload))) ring =
        .error .KeyNotFoundError := by rw [hread, hlk]
    simp only [verifyPgp, hring, hdec, hread']
  | some k' =>
    by_cases hchk : checkSig k' (mkSigPacket k payload) payload = true
    · have hread' : readMessage (serializeStream payload (some (mkSigPacket k payload))) ring =
          .ok ⟨payload, some (mkSigPacket k payload), none⟩ := by
        have h2 : readMessage (serializeStream payload (some (mkSigPacket k payload))) ring =
            (if checkSig k' (mkSigPacket k payload) payload = true then
              Except.ok ⟨payload, some (mkSigPacket k payload), none⟩
            else
              Except.ok ⟨payload, some (mkSigPacket k payload),
                some CError.SignatureMismatchError⟩) := by
          rw [hread, hlk]
        rw [h2, if_pos hchk]
      simp only [verifyPgp, hring, hdec, hread']
      show (some payload, (none : Option CError)) =
        (if checkSig k' (mkSigPacket k payload) payload = true then
          ((some payload : Option (List Nat)), (none : Option CError))
        else (none, some CError.SignatureMismatchError))
      rw [if_pos hchk]
    · have hread' : readMessage (serializeStream payload (some (mkSigPacket k payload))) ring =
          .ok ⟨payload, some (mkSigPacket k payload), some CError.SignatureMismatchError⟩ := by
        have h2 : readMessage (serializeStream payload (some (mkSigPacket k payload))) ring =
            (if checkSig k' (mkSigPacket k payload) payload = true then
              Except.ok ⟨payload, some (mkSigPacket k payload), none⟩
            else
              Except.ok ⟨payload, some (mkSigPacket k payload),
                some CError.SignatureMismatchError⟩) := by
          rw [hread, hlk]
        rw [h2, if_neg hchk]
      simp only [verifyPgp, hring, hdec, hread']
      show ((none : Option (List Nat)), some CError.SignatureMismatchError) =
        (if checkSig k' (mkSigPacket k payload) payload = true then
          ((some payload : Option (List Nat)), (none : Option CError))
        else (none, some CError.SignatureMismatchError))
      rw [if_neg hchk]

/-! ## The wrapper API -/

theorem NewPgpSigner_single (k : Key) (hs : k.secret < 2 ^ 160) :
    NewPgpSigner (serializeKeyRing .privateKeyBlock [k]) =
      .ok ⟨k, hexUpperBytes (fingerprint k)⟩ := by
  have hring := (readArmoredKeyRing_serialize [k] (by
    intro k' hk'
    rw [List.mem_singleton] at hk'
    subst hk'
    exact hs)).2
  simp only [NewPgpSigner, hring]

theorem NewPgpSigner_count (ks : List Key) (hs : ∀ k ∈ ks, k.secret < 2 ^ 160)
    (hne : ks.length ≠ 1) :
    NewPgpSigner (serializeKeyRing .privateKeyBlock ks) =
      .error (.ConfigurationError ks.length) := by
  have hring := (readArmoredKeyRing_serialize ks hs).2
  simp only [NewPgpSigner, hring]
  match ks, hne with
  | [], _ => rfl
  | [k], h => exact absurd rfl h
  | k1 :: k2 :: r, _ => rfl

theorem CreateAttestation_ok (s : PgpSigner) (payload : List Nat)
    (hc : s.privateKey.canSign = true) (hp : s.privateKey.hasPrivate = true)
    (hv : s.privateKey.privValid = true) :
    CreateAttestation s payload = .ok ⟨s.publicKeyID,
      encodeArmor .signature
        (serializeStream payload (some (mkSigPacket s.privateKey payload)))⟩ := by
  simp only [CreateAttestation, hc, hp, hv, Bool.and_self, if_true]

theorem CreateAttestation_closeFail (s : PgpSigner) (payload : List Nat)
    (hc : s.privateKey.canSign = true) (hp : s.privateKey.hasPrivate = true)
    (hv : s.privateKey.privValid = false) :
    CreateAttestation s payload = .ok ⟨s.publicKeyID,
      encodeArmor .signature (serializeStream payload none)⟩ := by
  simp only [CreateAttestation, hc, hp, hv, Bool.and_self, if_true,
    Bool.false_eq_true, if_false]

theorem lookupKey_eq_none (ring : List Key) (kid : List Nat)
    (h : ∀ k' ∈ ring, keyIdBytes k' ≠ kid) : lookupKey ring kid = none := by
  rw [lookupKey, List.find?_eq_none]
  intro x hx
  simpa using h x hx

theorem checkSig_self (k k' : Key) (payload : List Nat) (hks : k'.secret = k.secret) :
    checkSig k' (mkSigPacket k payload) payload = true := by
  simp [checkSig, mkSigPacket, hks]

/-! # Claims -/

/-- C1: For every payload P and every freshly generated signing key K,
verifying the attestation produced by signing P with K's private key
against K's public key returns exactly the original payload P and a nil
error (`Verify(Sign(P, K.private), K.public) = (P, nil)`). -/
theorem C1_sign_verify_roundtrip (payload : List Nat) (k : Key)
    (hpb : ∀ b ∈ payload, b < 256) (hpl : payload.length < 2 ^ 64)
    (hsec : k.secret < 2 ^ 160) (hc : k.canSign = true) (hp : k.hasPrivate = true)
    (hv : k.privValid = true) :
    ∃ signer att,
      NewPgpSigner (serializeKeyRing .privateKeyBlock [k]) = .ok signer ∧
      CreateAttestation signer payload = .ok att ∧
      verifyPgp att.Signature (serializeKeyRing .publicKeyBlock [pubKey k]) =
        (some payload, none) := by
  refine ⟨⟨k, hexUpperBytes (fingerprint k)⟩,
    ⟨hexUpperBytes (fingerprint k),
      encodeArmor .signature (serializeStream payload (some (mkSigPacket k payload)))⟩,
    NewPgpSigner_single k hsec, CreateAttestation_ok _ payload hc hp hv, ?_⟩
  have hring := (readArmoredKeyRing_serialize [pubKey k] (by
    intro k' hk'
    rw [List.mem_singleton] at hk'
    subst hk'
    exact hsec)).1
  show verifyPgp (encodeArmor .signature
    (serializeStream payload (some (mkSigPacket k payload)))) _ = _
  rw [verifyPgp_attestation payload k _ [pubKey k] hpl hpb hring]
  have hlk : lookupKey [pubKey k] (keyIdBytes k) = some (pubKey k) := by
    rw [lookupKey]
    apply List.find?_cons_of_pos
    simp [pubKey, keyIdBytes, fingerprint]
  rw [hlk]
  show (if checkSig (pubKey k) (mkSigPacket k payload) payload = true then
    ((some payload : Option (List Nat)), (none : Option CError))
    else (none, some CError.SignatureMismatchError)) = (some payload, none)
  rw [if_pos (checkSig_self k (pubKey k) payload rfl)]

/-- Witness for C1 at payload `[104, 105]` and the key with public value 77. -/
theorem C1_sign_verify_roundtrip_witness :
    ∃ signer att,
      NewPgpSigner (serializeKeyRing .privateKeyBlock [⟨77, true, true, true⟩]) =
        .ok signer ∧
      CreateAttestation signer [104, 105] = .ok att ∧
      verifyPgp att.Signature
        (serializeKeyRing .publicKeyBlock [pubKey ⟨77, true, true, true⟩]) =
        (some [104, 105], none) :=
  C1_sign_verify_roundtrip [104, 105] ⟨77, true, true, true⟩ (by decide) (by decide)
    (by decide) (by decide) (by decide) (by decide)

/-- C3: For every valid attestation and every key ring that does not
contain the signer's key (no key of the ring has the signer's key ID),
Verify returns a `KeyNotFoundError`. -/
theorem C3_wrong_key_rejection (payload : List Nat) (k : Key) (ring : List Key)
    (hpb : ∀ b ∈ payload, b < 256) (hpl : payload.length < 2 ^ 64)
    (hrs : ∀ k' ∈ ring, k'.secret < 2 ^ 160)
    (hc : k.canSign = true) (hp : k.hasPrivate = true) (hv : k.privValid = true)
    (hmiss : ∀ k' ∈ ring, keyIdBytes k' ≠ keyIdBytes k) :
    ∃ att,
      CreateAttestation ⟨k, hexUpperBytes (fingerprint k)⟩ payload = .ok att ∧
      verifyPgp att.Signature (serializeKeyRing .publicKeyBlock ring) =
        (none, some .KeyNotFoundError) := by
  refine ⟨⟨hexUpperBytes (fingerprint k),
    encodeArmor .signature (serializeStream payload (some (mkSigPacket k payload)))⟩,
    CreateAttestation_ok _ payload hc hp hv, ?_⟩
  have hring := (readArmoredKeyRing_serialize ring hrs).1
  show verifyPgp (encodeArmor .signature
    (serializeStream payload (some (mkSigPacket k payload)))) _ = _
  rw [verifyPgp_attestation payload k _ ring hpl hpb hring,
    lookupKey_eq_none ring _ hmiss]

/-- Witness for C3: the attestation of key 77 verified against a ring
holding only the unrelated key 5. -/
theorem C3_wrong_key_rejection_witness :
    ∃ att,
      CreateAttestation ⟨⟨77, true, true, true⟩,
        hexUpperBytes (fingerprint ⟨77, true, true, true⟩)⟩ [104, 105] = .ok att ∧
      verifyPgp att.Signature
        (serializeKeyRing .publicKeyBlock [⟨5, true, false, false⟩]) =
        (none, some .KeyNotFoundError) :=
  C3_wrong_key_rejection [104, 105] ⟨77, true, true, true⟩ [⟨5, true, false, false⟩]
    (by decide) (by decide) (by decide) (by decide) (by decide) (by decide) (by decide)

/-- C10: Verification never consults the Attestation's `PublicKeyID`
field: `verifyPgp` takes only the armored signature and public-key bytes,
and it succeeds — returning the payload — whenever the embedded signature
validates against a key of the supplied key ring, whatever `PublicKeyID`
the attestation claims. -/
theorem C10_publickeyid_not_consulted (payload : List Nat) (k k' : Key)
    (ring : List Key) (claimed : List Nat)
    (hpb : ∀ b ∈ payload, b < 256) (hpl : payload.length < 2 ^ 64)
    (hrs : ∀ k2 ∈ ring, k2.secret < 2 ^ 160)
    (hc : k.canSign = true) (hp : k.hasPrivate = true) (hv : k.privValid = true)
    (hlk : lookupKey ring (keyIdBytes k) = some k') (hks : k'.secret = k.secret) :
    ∃ att,
      CreateAttestation ⟨k, hexUpperBytes (fingerprint k)⟩ payload = .ok att ∧
      verifyPgp (Attestation.mk claimed att.Signature).Signature
        (serializeKeyRing .publicKeyBlock ring) = (some payload, none) := by
  refine ⟨⟨hexUpperBytes (fingerprint k),
    encodeArmor .signature (serializeStream payload (some (mkSigPacket k payload)))⟩,
    CreateAttestation_ok _ payload hc hp hv, ?_⟩
  have hring := (readArmoredKeyRing_serialize ring hrs).1
  show verifyPgp (encodeArmor .signature
    (serializeStream payload (some (mkSigPacket k payload)))) _ = _
  rw [verifyPgp_attestation payload k _ ring hpl hpb hring, hlk]
  show (if checkSig k' (mkSigPacket k payload) payload = true then
    ((some payload : Option (List Nat)), (none : Option CError))
    else (none, some CError.SignatureMismatchError)) = (some payload, none)
  rw [if_pos (checkSig_self k k' payload hks)]

/-- Witness for C10: the attestation of key 77 with a bogus claimed
`PublicKeyID` of `"Z"` verifies against a two-key ring containing key 77's
public key in second position. -/
theorem C10_publickeyid_not_consulted_witness :
    ∃ att,
      CreateAttestation ⟨⟨77, true, true, true⟩,
        hexUpperBytes (fingerprint ⟨77, true, true, true⟩)⟩ [104, 105] = .ok att ∧
      verifyPgp (Attestation.mk [90] att.Signature).Signature
        (serializeKeyRing .publicKeyBlock
          [⟨5, true, false, false⟩, pubKey ⟨77, true, true, true⟩]) =
        (some [104, 105], none) :=
  C10_publickeyid_not_consulted [104, 105] ⟨77, true, true, true⟩
    (pubKey ⟨77, true, true, true⟩)
    [⟨5, true, false, false⟩, pubKey ⟨77, true, true, true⟩] [90]
    (by decide) (by decide) (by decide) (by decide) (by decide) (by decide)
    (by decide) (by decide)

/-- C4 counterexample: a ring holding exactly one key that is *not*
signing-capable contains zero signing-capable keys, yet `NewPgpSigner`
succeeds — the code checks only the total key count (pgp.go:81), not
signing capability, so the claim as stated is false. -/
theorem C4_counterexample :
    (∀ k ∈ [(⟨9, false, true, true⟩ : Key)], k.canSign = false) ∧
    NewPgpSigner (serializeKeyRing .privateKeyBlock [⟨9, false, true, true⟩]) =
      .ok ⟨⟨9, false, true, true⟩, hexUpperBytes (fingerprint ⟨9, false, true, true⟩)⟩ :=
  ⟨by decide, NewPgpSigner_single _ (by decide)⟩

/-- C4 (amended): `NewPgpSigner` fails with a `ConfigurationError`
reporting the actual key count whenever the parsed ring does not hold
exactly one key — signing capability is not checked — and with exactly
one key it succeeds with `publicKeyID` the uppercase-hex fingerprint of
that key. -/
theorem C4_key_count_validation (ks : List Key)
    (hs : ∀ k ∈ ks, k.secret < 2 ^ 160) :
    (ks.length ≠ 1 →
      NewPgpSigner (serializeKeyRing .privateKeyBlock ks) =
        .error (.ConfigurationError ks.length)) ∧
    (∀ k, ks = [k] →
      NewPgpSigner (serializeKeyRing .privateKeyBlock ks) =
        .ok ⟨k, hexUpperBytes (fingerprint k)⟩) := by
  refine ⟨fun hne => NewPgpSigner_count ks hs hne, fun k hk => ?_⟩
  subst hk
  exact NewPgpSigner_single k (hs k (List.mem_singleton_self k))

/-- Witness for C4 (amended): empty ring → `ConfigurationError 0`;
two keys (one of them signing-capable) → `ConfigurationError 2`;
a single key → success with the hex-uppercase fingerprint. -/
theorem C4_key_count_validation_witness :
    NewPgpSigner (serializeKeyRing .privateKeyBlock []) =
      .error (.ConfigurationError 0) ∧
    NewPgpSigner (serializeKeyRing .privateKeyBlock
      [⟨5, true, true, true⟩, ⟨9, false, false, false⟩]) =
      .error (.ConfigurationError 2) ∧
    NewPgpSigner (serializeKeyRing .privateKeyBlock [⟨77, true, true, true⟩]) =
      .ok ⟨⟨77, true, true, true⟩, hexUpperBytes (fingerprint ⟨77, true, true, true⟩)⟩ :=
  ⟨(C4_key_count_validation [] (by decide)).1 (by decide),
   (C4_key_count_validation [⟨5, true, true, true⟩, ⟨9, false, false, false⟩]
     (by decide)).1 (by decide),
   (C4_key_count_validation [⟨77, true, true, true⟩] (by decide)).2 _ rfl⟩

/-- C5: the capability half of the claim holds — a key without signing
capability makes `CreateAttestation` fail with `SigningError`
(pgp.go:104-107) — but the crypto-failure half is a code bug: the error
of `signatureWriter.Close()`, the call that performs the cryptographic
signing, is discarded at pgp.go:116, so a key whose private material is
malformed (`privValid = false`) still yields a "successful" Attestation,
whose armor lacks the trailing signature packet and which can never
verify (`MissingSignatureError`). -/
theorem C5_close_error_discarded :
    CreateAttestation ⟨⟨9, false, true, true⟩,
      hexUpperBytes (fingerprint ⟨9, false, true, true⟩)⟩ [1, 2] =
      .error .SigningError ∧
    CreateAttestation ⟨⟨9, true, true, false⟩,
      hexUpperBytes (fingerprint ⟨9, true, true, false⟩)⟩ [1, 2] =
      .ok ⟨hexUpperBytes (fingerprint ⟨9, true, true, false⟩),
        encodeArmor .signature (serializeStream [1, 2] none)⟩ ∧
    verifyPgp (encodeArmor .signature (serializeStream [1, 2] none))
      (serializeKeyRing .publicKeyBlock [pubKey ⟨9, true, true, false⟩]) =
      (none, some .MissingSignatureError) := by
  refine ⟨rfl, CreateAttestation_closeFail _ _ rfl rfl rfl, ?_⟩
  have hring := (readArmoredKeyRing_serialize [pubKey ⟨9, true, true, false⟩]
    (by decide)).1
  have hdec := decodeArmor_encodeArmor .signature (serializeStream [1, 2] none)
    (mem_serializeStream_lt [1, 2] (by decide) none (fun sp h => by simp at h))
  have hread := readMessage_serializeStream_none [1, 2] (by decide)
    [pubKey ⟨9, true, true, false⟩]
  simp only [verifyPgp, hring, hdec, hread]

/-- C6: for every input, `verifyPgp` returns either a payload with a nil
error or no payload with a non-nil error — never a payload alongside an
error (pgp.go returns `nil` for the payload on every error path). -/
theorem C6_no_partial_result (signature publicKey : List Nat) :
    ((verifyPgp signature publicKey).1.isSome) =
      ((verifyPgp signature publicKey).2).isNone := by
  cases h1 : readArmoredKeyRing publicKey with
  | error e => simp [verifyPgp, h1]
  | ok keyring =>
    cases h2 : decodeArmor signature with
    | none => simp [verifyPgp, h1, h2]
    | some p =>
      obtain ⟨ty, body⟩ := p
      cases h3 : readMessage body keyring with
      | error e => simp [verifyPgp, h1, h2, h3]
      | ok md =>
        obtain ⟨payload, sigOpt, errOpt⟩ := md
        cases errOpt with
        | some e => simp [verifyPgp, h1, h2, h3]
        | none =>
          cases sigOpt with
          | none => simp [verifyPgp, h1, h2, h3]
          | some sp => simp [verifyPgp, h1, h2, h3]

/-- C7: a stream whose packet stream is exhausted after the embedded
payload without ever producing a trailing signature packet makes Verify
return `MissingSignatureError` and no payload (pgp.go:63-65). -/
theorem C7_missing_signature (payload pubBytes : List Nat) (ring : List Key)
    (ty : ArmorType) (hpl : payload.length < 2 ^ 64)
    (hpb : ∀ b ∈ payload, b < 256)
    (hring : readArmoredKeyRing pubBytes = .ok ring) :
    verifyPgp (encodeArmor ty (serializeStream payload none)) pubBytes =
      (none, some .MissingSignatureError) := by
  have hdec := decodeArmor_encodeArmor ty (serializeStream payload none)
    (mem_serializeStream_lt payload hpb none (fun sp h => by simp at h))
  have hread := readMessage_serializeStream_none payload hpl ring
  simp only [verifyPgp, hring, hdec, hread]

/-- Witness for C7 at payload `[1]` against the single-key ring of key 5. -/
theorem C7_missing_signature_witness :
    verifyPgp (encodeArmor .signature (serializeStream [1] none))
      (serializeKeyRing .publicKeyBlock [⟨5, true, false, false⟩]) =
      (none, some .MissingSignatureError) :=
  C7_missing_signature [1] _ [⟨5, true, false, false⟩] .signature (by decide)
    (by decide) ((readArmoredKeyRing_serialize [⟨5, true, false, false⟩] (by decide)).1)

/-- C8: in every run of Verify, once the message stream has been read the
signature check happens only after the entire embedded payload has been
consumed, and no verdict — success or signature failure — is reported
before the full stream has been consumed and checked; the instrumented
trace agrees with `verifyPgp`. -/
theorem C8_check_after_full_consumption (signature publicKey : List Nat) :
    orderOK (verifyPgpTrace signature publicKey).2 false false false = true ∧
    (verifyPgpTrace signature publicKey).1 = verifyPgp signature publicKey := by
  cases h1 : readArmoredKeyRing publicKey with
  | error e => refine ⟨?_, ?_⟩ <;> simp [verifyPgpTrace, verifyPgp, orderOK, h1]
  | ok keyring =>
    cases h2 : decodeArmor signature with
    | none => refine ⟨?_, ?_⟩ <;> simp [verifyPgpTrace, verifyPgp, orderOK, h1, h2]
    | some p =>
      obtain ⟨ty, body⟩ := p
      cases h3 : readMessage body keyring with
      | error e =>
        refine ⟨?_, ?_⟩ <;> simp [verifyPgpTrace, verifyPgp, orderOK, h1, h2, h3]
      | ok md =>
        obtain ⟨payload, sigOpt, errOpt⟩ := md
        cases errOpt with
        | some e =>
          refine ⟨?_, ?_⟩ <;> simp [verifyPgpTrace, verifyPgp, orderOK, h1, h2, h3]
        | none =>
          cases sigOpt with
          | none =>
            refine ⟨?_, ?_⟩ <;> simp [verifyPgpTrace, verifyPgp, orderOK, h1, h2, h3]
          | some sp =>
            refine ⟨?_, ?_⟩ <;> simp [verifyPgpTrace, verifyPgp, orderOK, h1, h2, h3]

/-! ## C2: tampering with the armored signature body -/

theorem encodeB64_getD (B : List Nat) (m : Nat) (hm : m < (encodeB64 B).length) :
    ∃ v, v < 64 ∧ (encodeB64 B).getD m 0 = b64chr v := by
  rw [List.getD_eq_getElem?_getD, List.getElem?_eq_getElem hm]
  simp only [encodeB64] at hm ⊢
  refine ⟨(chunk6 (bytesToBits B)).get ⟨m, by simpa using hm⟩, ?_, ?_⟩
  · exact chunk6_lt _ _ (List.get_mem _ _ _)
  · simp

theorem getD_decomp (l : List Nat) (m : Nat) (hm : m < l.length) :
    l = l.take m ++ l.getD m 0 :: l.drop (m + 1) := by
  conv_lhs => rw [← List.take_append_drop m l]
  rw [List.drop_eq_getElem_cons hm, List.getD_eq_getElem?_getD,
    List.getElem?_eq_getElem hm]
  rfl

theorem set_decomp (l : List Nat) (m : Nat) (hm : m < l.length) (c' : Nat) :
    l.set m c' = l.take m ++ c' :: l.drop (m + 1) := by
  rw [List.set_eq_take_append_cons_drop, if_pos hm]

/-- Flipping any single bit of any byte of the radix-64 body of an
armored block makes `decodeArmor` fail: the flipped character is either
no longer a base64 character (or a newline, breaking the line structure),
or it decodes to a body whose CRC24 no longer matches the stored
checksum. -/
theorem decodeArmor_flip (ty : ArmorType) (B : List Nat) (hB : ∀ b ∈ B, b < 256)
    (i j : Nat) (hj : j < 8)
    (hi1 : (headerBytes ty).length + 1 ≤ i)
    (hi2 : i < (headerBytes ty).length + 1 + (encodeB64 B).length) :
    decodeArmor (flipBit (encodeArmor ty B) i j) = none := by
  set H := headerBytes ty with hH
  set body := encodeB64 B with hbody
  set crcline := 61 :: encodeB64 (natToBytesBE 3 (crc24 B)) with hcrcline
  set F := footerBytes ty with hF
  set REST := 10 :: (crcline ++ 10 :: (F ++ 10 :: [])) with hREST
  set m := i - (H.length + 1) with hm
  have hmlt : m < body.length := by omega
  have hshape : encodeArmor ty B = (H ++ [10]) ++ (body ++ REST) := by
    simp [encodeArmor, hREST, hcrcline, List.append_assoc]
  have hlenH : (H ++ [10]).length = H.length + 1 := by simp
  -- the original character at the flip position
  have hgetD : (encodeArmor ty B).getD i 0 = body.getD m 0 := by
    rw [hshape, List.getD_eq_getElem?_getD, List.getElem?_append_right (by omega),
      hlenH, List.getElem?_append_left (by omega)]
    rw [List.getD_eq_getElem?_getD, hm]
  set c := body.getD m 0 with hc
  obtain ⟨v, hv64, hcv⟩ := encodeB64_getD B m hmlt
  have hc256 : c < 256 := by rw [hc, hcv]; exact b64chr_lt_256 v hv64
  set c' := c ^^^ 2 ^ j with hc'
  have hcc' : c ≠ c' := by
    intro he
    have hcl := Nat.xor_cancel_left c (2 ^ j)
    rw [← hc', ← he, Nat.xor_self] at hcl
    exact absurd hcl.symm (Nat.pos_iff_ne_zero.mp (Nat.pow_pos (by decide)))
  have hc'256 : c' < 256 := by
    rw [hc']
    exact Nat.xor_lt_two_pow (n := 8) hc256
      (Nat.pow_lt_pow_right (by decide) hj)
  have hflipped : flipBit (encodeArmor ty B) i j =
      (H ++ [10]) ++ (body.set m c' ++ REST) := by
    rw [flipBit, hgetD, ← hc', hshape, List.set_append_right _ _ (by omega), hlenH,
      ← hm, List.set_append_left _ _ hmlt]
  have hbody10 : ∀ ch ∈ body, ch ≠ 10 := fun ch hch => (mem_encodeB64 B ch hch).1
  have hbodyeq : body = body.take m ++ c :: body.drop (m + 1) := getD_decomp body m hmlt
  have hseteq : body.set m c' = body.take m ++ c' :: body.drop (m + 1) :=
    set_decomp body m hmlt c'
  have htake10 : ∀ ch ∈ body.take m, ch ≠ 10 :=
    fun ch hch => hbody10 ch (List.take_subset m body hch)
  have hdrop10 : ∀ ch ∈ body.drop (m + 1), ch ≠ 10 :=
    fun ch hch => hbody10 ch (List.drop_subset (m + 1) body hch)
  by_cases h10 : c' = 10
  · -- the flip produced a newline: the armor no longer has five lines
    have hshape2 : flipBit (encodeArmor ty B) i j =
        H ++ 10 :: (body.take m ++ 10 :: (body.drop (m + 1) ++ 10 ::
          (crcline ++ 10 :: (F ++ 10 :: [])))) := by
      rw [hflipped, hseteq, h10, hREST]
      simp [List.append_assoc]
    rw [decodeArmor, hshape2, splitNL_append _ _ (headerBytes_ne_10 ty),
      splitNL_append _ _ htake10, splitNL_append _ _ hdrop10,
      splitNL_append _ _ (crcLine_ne_10 B),
      splitNL_append _ _ (footerBytes_ne_10 ty)]
    rfl
  · -- still five lines, but the body decodes differently (or not at all)
    have hbody'10 : ∀ ch ∈ body.set m c', ch ≠ 10 := by
      intro ch hch
      rw [hseteq] at hch
      rcases List.mem_append.mp hch with h | h
      · exact htake10 ch h
      · rcases List.mem_cons.mp h with h | h
        · subst h; exact h10
        · exact hdrop10 ch h
    have hshape2 : flipBit (encodeArmor ty B) i j =
        H ++ 10 :: (body.set m c' ++ 10 :: (crcline ++ 10 :: (F ++ 10 :: []))) := by
      rw [hflipped, hREST]
      simp [List.append_assoc]
    rw [decodeArmor, hshape2,
      splitNL_append _ _ (headerBytes_ne_10 ty),
      splitNL_append _ _ hbody'10,
      splitNL_append _ _ (crcLine_ne_10 B),
      splitNL_append _ _ (footerBytes_ne_10 ty)]
    show (match armorTypeOf H with
      | some ty' =>
        if F = footerBytes ty' ∧ ([] : List Nat) = [] then
          match decodeB64 (encodeB64 (natToBytesBE 3 (crc24 B))),
              decodeB64 (body.set m c') with
          | some cb, some B2 =>
            if cb.length = 3 ∧ bytesToNatBE cb = crc24 B2 then some (ty', B2) else none
          | _, _ => none
        else none
      | none => none) = none
    rw [hH, armorTypeOf_header]
    show (if F = footerBytes ty ∧ ([] : List Nat) = [] then
      match decodeB64 (encodeB64 (natToBytesBE 3 (crc24 B))),
          decodeB64 (body.set m c') with
      | some cb, some B2 =>
        if cb.length = 3 ∧ bytesToNatBE cb = crc24 B2 then some (ty, B2) else none
      | _, _ => none
      else none) = none
    rw [if_pos ⟨hF, rfl⟩, decodeB64_encodeB64 _ (mem_natToBytesBE_lt 3 _)]
    cases hdecB : decodeB64 (body.set m c') with
    | none => rfl
    | some B2 =>
      show (if (natToBytesBE 3 (crc24 B)).length = 3 ∧
          bytesToNatBE (natToBytesBE 3 (crc24 B)) = crc24 B2 then some (ty, B2)
        else none) = none
      have hdecOrig : decodeB64 (body.take m ++ c :: body.drop (m + 1)) = some B := by
        rw [← hbodyeq, hbody]
        exact decodeB64_encodeB64 B hB
      have hdecFlip : decodeB64 (body.take m ++ c' :: body.drop (m + 1)) = some B2 := by
        rw [← hseteq]
        exact hdecB
      have hcrcne : crc24 B ≠ crc24 B2 :=
        crc24_decode_flip (body.take m) (body.drop (m + 1)) c c' B B2 hcc' hc256 hc'256
          hdecOrig hdecFlip
      rw [if_neg (fun hand => hcrcne (by
        have h := hand.2
        rw [bytesToNatBE_natToBytesBE,
          Nat.mod_eq_of_lt (by simpa using crc24_lt B)] at h
        exact h))]

/-- C2: flipping any single bit of any byte inside the radix-64 signature
body of a valid attestation makes Verify return `ArmorFormatError` or
`SignatureMismatchError` (here always the former: the CRC24 check or the
armor structure catches every single-bit change first) and never a
payload. -/
theorem C2_tamper_detection (payload : List Nat) (k : Key) (pubBytes : List Nat)
    (ring : List Key) (i j : Nat)
    (hpb : ∀ b ∈ payload, b < 256)
    (hc : k.canSign = true) (hp : k.hasPrivate = true) (hv : k.privValid = true)
    (hring : readArmoredKeyRing pubBytes = .ok ring)
    (hj : j < 8)
    (hi1 : (headerBytes .signature).length + 1 ≤ i)
    (hi2 : i < (headerBytes .signature).length + 1 +
      (encodeB64 (serializeStream payload (some (mkSigPacket k payload)))).length) :
    ∀ att, CreateAttestation ⟨k, hexUpperBytes (fingerprint k)⟩ payload = .ok att →
      (verifyPgp (flipBit att.Signature i j) pubBytes).1 = none ∧
      ((verifyPgp (flipBit att.Signature i j) pubBytes).2 = some .ArmorFormatError ∨
       (verifyPgp (flipBit att.Signature i j) pubBytes).2 =
         some .SignatureMismatchError) := by
  intro att hatt
  rw [CreateAttestation_ok _ payload hc hp hv] at hatt
  injection hatt with hatt
  subst hatt
  have hsb : ∀ b ∈ serializeStream payload (some (mkSigPacket k payload)), b < 256 :=
    mem_serializeStream_lt payload hpb _ (fun sp h => by
      injection h with h
      subst h
      exact ⟨mem_keyIdBytes_lt k, rfl⟩)
  have hflip := decodeArmor_flip .signature _ hsb i j hj hi1 hi2
  constructor
  · simp only [verifyPgp, hring, hflip]
  · left
    simp only [verifyPgp, hring, hflip]

/-- Witness for C2: bit 0 of byte 30 (the first radix-64 body byte) of a
concrete valid attestation is flipped; Verify rejects it. -/
theorem C2_tamper_detection_witness :
    (verifyPgp (flipBit (Attestation.mk
        (hexUpperBytes (fingerprint ⟨77, true, true, true⟩))
        (encodeArmor .signature (serializeStream [104, 105]
          (some (mkSigPacket ⟨77, true, true, true⟩ [104, 105]))))).Signature 30 0)
      (serializeKeyRing .publicKeyBlock [⟨5, true, false, false⟩])).1 = none ∧
    ((verifyPgp (flipBit (Attestation.mk
        (hexUpperBytes (fingerprint ⟨77, true, true, true⟩))
        (encodeArmor .signature (serializeStream [104, 105]
          (some (mkSigPacket ⟨77, true, true, true⟩ [104, 105]))))).Signature 30 0)
      (serializeKeyRing .publicKeyBlock [⟨5, true, false, false⟩])).2 =
        some .ArmorFormatError ∨
     (verifyPgp (flipBit (Attestation.mk
        (hexUpperBytes (fingerprint ⟨77, true, true, true⟩))
        (encodeArmor .signature (serializeStream [104, 105]
          (some (mkSigPacket ⟨77, true, true, true⟩ [104, 105]))))).Signature 30 0)
      (serializeKeyRing .publicKeyBlock [⟨5, true, false, false⟩])).2 =
        some .SignatureMismatchError) :=
  C2_tamper_detection [104, 105] ⟨77, true, true, true⟩
    (serializeKeyRing .publicKeyBlock [⟨5, true, false, false⟩])
    [⟨5, true, false, false⟩] 30 0 (by decide) (by decide) (by decide) (by decide)
    ((readArmoredKeyRing_serialize [⟨5, true, false, false⟩] (by decide)).1)
    (by decide) (by decide) (by decide)
    (Attestation.mk (hexUpperBytes (fingerprint ⟨77, true, true, true⟩))
      (encodeArmor .signature (serializeStream [104, 105]
        (some (mkSigPacket ⟨77, true, true, true⟩ [104, 105])))))
    (CreateAttestation_ok _ _ rfl rfl rfl)

/-- C9: `CreateAttestation` is a pure function of the payload and the
bound key material: the signer state is not modified by a call, and a
second call on the returned state with the same payload produces the
identical result. -/
theorem C9_pure_stateless (s : PgpSigner) (payload : List Nat) :
    (CreateAttestationSt s payload).2 = s ∧
    (CreateAttestationSt (CreateAttestationSt s payload).2 payload).1 =
      (CreateAttestationSt s payload).1 :=
  ⟨rfl, rfl⟩

end Cryptolib
